import Mathlib

/-!
Verification of the coderlm code-intelligence server core against its
specification.  The Rust sources under `src/server/src/` are shallowly
embedded: pure computation is translated to Lean functions, the concurrent
keyed maps (`DashMap`) become association lists, `HashSet` values become
duplicate-free lists, UTF-8 strings operated on at the byte level become
lists of bytes (`List Nat`) or lists of characters with their UTF-8 widths,
and operations that can panic in Rust return `Option` with `none` modelling
the panic (or, for the byte-window chunker, divergence).  Filesystem reads,
the external PDF converter and tree-sitter parsing are external effects;
their results enter the embedding as explicit parameters or state fields.
-/

-- ═══════════════════════ Definitions ═══════════════════════

/-- Modelled from the spec: the language tag is a closed enumeration
(`src/server/src/index/file_entry.rs` is not part of the provided sources);
only the `pdf` tag is treated specially anywhere in the embedded code. -/
inductive Lang where
  | rust
  | markdown
  | leanLang
  | pdf
  | plain
deriving DecidableEq

/-- Symbol' kinds, from `src/server/src/symbols/symbol.rs` usage in
`parser.rs` (Function, Method, Struct, Enum, Trait, Class, Interface,
Type, Constant, Module). -/
inductive SymbolKind where
  | function
  | method
  | struct
  | enum
  | trait
  | classKind
  | interface
  | typeAlias
  | constant
  | module
deriving DecidableEq

/-- A symbol record, from the fields used throughout `symbols/mod.rs` and
`symbols/parser.rs`: name, kind, file, byte range, line range, language,
signature, optional definition annotation, optional parent. -/
structure Symbol' where
  name : String
  kind : SymbolKind
  file : String
  byteRange : Nat × Nat
  lineRange : Nat × Nat
  language : Lang
  signature : String
  definition : Option String
  parent : Option String
deriving DecidableEq

/-- A cached reference to a call site (`symbols/mod.rs`, `CallerRef`). -/
structure CallerRef where
  file : String
  line : Nat
  text : String
deriving DecidableEq

/-- The symbol table (`symbols/mod.rs`, `SymbolTable`).  The four `DashMap`s
are modelled as association lists; the `HashSet` values of the secondary
indices are modelled as duplicate-free lists. -/
structure SymbolTable where
  symbols : List (String × Symbol')
  by_name : List (String × List String)
  by_file : List (String × List String)
  reverse_call_graph : List (String × List CallerRef)
deriving DecidableEq

/-- Association-list lookup, modelling `DashMap::get`. -/
def alGet : List (String × α) → String → Option α
  | [], _ => none
  | p :: t, k => if p.1 = k then some p.2 else alGet t k

/-- Removal of a key, modelling `DashMap::remove` (extensionally). -/
def eraseKey (m : List (String × α)) (k : String) : List (String × α) :=
  m.filter (fun p => decide (¬ p.1 = k))

/-- Insert-or-replace, modelling `DashMap::insert` (extensionally: the map
afterwards binds `k` to `v` and binds every other key as before). -/
def alUpsert (m : List (String × α)) (k : String) (v : α) : List (String × α) :=
  (k, v) :: eraseKey m k

/-- The set of values stored under `k`, empty when the entry is absent.
`HashSet` entries and `Vec` entries are both read through this. -/
def entryOr (m : List (String × List α)) (k : String) : List α :=
  (alGet m k).getD []

/-- `HashSet::insert` on the list model: add the element if absent. -/
def setInsert (x : String) (s : List String) : List String :=
  if x ∈ s then s else s ++ [x]

/-- Key construction `format!("{}::{}", file, name)`
(`SymbolTable::make_key`). -/
def make_key (file name : String) : String :=
  file ++ "::" ++ name

/-- `SymbolTable::new`. -/
def SymbolTable.empty : SymbolTable :=
  { symbols := [], by_name := [], by_file := [], reverse_call_graph := [] }

/-- `entry(k).or_insert_with(HashSet::new).insert(x)` on a secondary index. -/
def mapInsertSet (m : List (String × List String)) (k x : String) :
    List (String × List String) :=
  alUpsert m k (setInsert x (entryOr m k))

/-- `SymbolTable::insert`: update both secondary indices, then the primary
store (`symbols/mod.rs` lines 62-76). -/
def SymbolTable.insert (t : SymbolTable) (symbol : Symbol') : SymbolTable :=
  let key := make_key symbol.file symbol.name
  { t with
    by_name := mapInsertSet t.by_name symbol.name key
    by_file := mapInsertSet t.by_file symbol.file key
    symbols := alUpsert t.symbols key symbol }

/-- `SymbolTable::add_caller`: append a `CallerRef` to the callee's list. -/
def SymbolTable.add_caller (t : SymbolTable) (callee_name file : String)
    (line : Nat) (text : String) : SymbolTable :=
  { t with
    reverse_call_graph :=
      alUpsert t.reverse_call_graph callee_name
        (entryOr t.reverse_call_graph callee_name ++
          [{ file := file, line := line, text := text }]) }

/-- `SymbolTable::remove_callers_from_file`: drop every caller reference
whose `file` matches, then drop entries that became empty. -/
def SymbolTable.remove_callers_from_file (t : SymbolTable) (file : String) :
    SymbolTable :=
  { t with
    reverse_call_graph :=
      ((t.reverse_call_graph.map
          (fun p => (p.1, p.2.filter (fun c => decide (¬ c.file = file))))).filter
        (fun p => decide (¬ p.2 = []))) }

/-- The body of `by_name.get_mut(&sym.name)` / `name_set.remove(key)` /
drop-if-empty inside `SymbolTable::remove_file`. -/
def nameSetRemove (m : List (String × List String)) (n key : String) :
    List (String × List String) :=
  match alGet m n with
  | none => m
  | some s =>
      let s' := s.filter (fun x => decide (¬ x = key))
      if s' = [] then eraseKey m n else alUpsert m n s'

/-- One iteration of the key loop in `SymbolTable::remove_file`: remove the
key from the primary store and, when a record was present, from the
`by_name` index. -/
def remove_key_step (acc : SymbolTable) (key : String) : SymbolTable :=
  match alGet acc.symbols key with
  | none => acc
  | some sym =>
      { acc with
        symbols := eraseKey acc.symbols key
        by_name := nameSetRemove acc.by_name sym.name key }

/-- `SymbolTable::remove_file` (`symbols/mod.rs` lines 87-102). -/
def SymbolTable.remove_file (t : SymbolTable) (file : String) : SymbolTable :=
  let t1 := SymbolTable.remove_callers_from_file t file
  match alGet t1.by_file file with
  | none => t1
  | some keys =>
      keys.foldl remove_key_step { t1 with by_file := eraseKey t1.by_file file }

/-- `SymbolTable::get`. -/
def SymbolTable.get (t : SymbolTable) (file name : String) : Option Symbol' :=
  alGet t.symbols (make_key file name)

/-- `SymbolTable::list_by_file`. -/
def SymbolTable.list_by_file (t : SymbolTable) (file : String) : List Symbol' :=
  (entryOr t.by_file file).filterMap (alGet t.symbols)

/-- Per-character lowercasing, modelling `str::to_lowercase`. -/
def lowerChars (l : List Char) : List Char :=
  l.map Char.toLower

/-- Substring containment, modelling `str::contains(&str)`. -/
def hasSub (needle : List Char) : List Char → Bool
  | [] => needle.isEmpty
  | c :: t => needle.isPrefixOf (c :: t) || hasSub needle t

/-- The iteration loop of `SymbolTable::search`: push each match, stopping
as soon as the result count reaches the limit (the push happens before the
`>= limit` check, exactly as in the source). -/
def searchLoop (queryLower : List Char) (limit : Nat) :
    List (String × Symbol') → List Symbol' → List Symbol'
  | [], acc => acc
  | (_, s) :: rest, acc =>
      if hasSub queryLower (lowerChars s.name.data) then
        let acc' := acc ++ [s]
        if limit ≤ acc'.length then acc'
        else searchLoop queryLower limit rest acc'
      else searchLoop queryLower limit rest acc

/-- `SymbolTable::search` (`symbols/mod.rs` lines 109-121). -/
def SymbolTable.search (t : SymbolTable) (query : String) (limit : Nat) :
    List Symbol' :=
  searchLoop (lowerChars query.data) limit t.symbols []

/-- Operations driven against the symbol table; the claims quantify over
arbitrary sequences of these. -/
inductive TableOp where
  | insertOp (s : Symbol')
  | removeFileOp (f : String)
  | addCallerOp (callee file : String) (line : Nat) (text : String)

/-- Apply one operation. -/
def applyOp (t : SymbolTable) : TableOp → SymbolTable
  | TableOp.insertOp s => SymbolTable.insert t s
  | TableOp.removeFileOp f => SymbolTable.remove_file t f
  | TableOp.addCallerOp callee file line text =>
      SymbolTable.add_caller t callee file line text

/-- Apply a sequence of operations to the empty table. -/
def applyOps (ops : List TableOp) : SymbolTable :=
  ops.foldl applyOp SymbolTable.empty

/-- Symbols inserted by a sequence of operations. -/
def insertedSymbols (ops : List TableOp) : List Symbol' :=
  ops.filterMap (fun op =>
    match op with
    | TableOp.insertOp s => some s
    | _ => none)

/-- Key-encoding injectivity over a pool of symbols: distinct
`(file, name)` pairs receive distinct `file::name` keys. -/
def KeyCoherent (pool : List Symbol') : Prop :=
  ∀ s1 ∈ pool, ∀ s2 ∈ pool,
    make_key s1.file s1.name = make_key s2.file s2.name →
      s1.file = s2.file ∧ s1.name = s2.name

/-- Key-encoding injectivity for the symbols inserted by a sequence. -/
def CollisionFree (ops : List TableOp) : Prop :=
  KeyCoherent (insertedSymbols ops)

/-- The index invariant claimed for the symbol table: every stored record's
key is in both secondary indices, and the indices hold no key absent from
the primary store. -/
def IndexInv (t : SymbolTable) : Prop :=
  (∀ k s, alGet t.symbols k = some s →
      k ∈ entryOr t.by_name s.name ∧ k ∈ entryOr t.by_file s.file) ∧
  (∀ n k, k ∈ entryOr t.by_name n → ∃ s, alGet t.symbols k = some s) ∧
  (∀ f k, k ∈ entryOr t.by_file f → ∃ s, alGet t.symbols k = some s)

/-- State claimed after `remove_file F`: no record, no `by_file` entry and
no caller reference mentions `F`, and the index invariant still holds. -/
def AfterRemove (t : SymbolTable) (F : String) : Prop :=
  (∀ k s, alGet t.symbols k = some s → ¬ s.file = F) ∧
  entryOr t.by_file F = [] ∧
  (∀ n c, c ∈ entryOr t.reverse_call_graph n → ¬ c.file = F) ∧
  IndexInv t

/-- Strengthened invariant used to push the index invariant through the
operations; `pool` over-approximates the set of symbols ever inserted. -/
structure SInv (t : SymbolTable) (pool : List Symbol') : Prop where
  store_key : ∀ k s, alGet t.symbols k = some s → k = make_key s.file s.name
  store_pool : ∀ k s, alGet t.symbols k = some s → s ∈ pool
  store_name : ∀ k s, alGet t.symbols k = some s → k ∈ entryOr t.by_name s.name
  store_file : ∀ k s, alGet t.symbols k = some s → k ∈ entryOr t.by_file s.file
  name_store : ∀ n k, k ∈ entryOr t.by_name n →
    ∃ s, alGet t.symbols k = some s ∧ s.name = n
  file_store : ∀ f k, k ∈ entryOr t.by_file f →
    ∃ s, alGet t.symbols k = some s ∧ s.file = f

/-- Invariant carried through the key loop of `remove_file f`: `ks` is the
list of keys still to process, the `by_file f` entry is already gone. -/
structure FoldInv (f : String) (ks : List String) (acc : SymbolTable)
    (pool : List Symbol') : Prop where
  fi_key : ∀ k s, alGet acc.symbols k = some s → k = make_key s.file s.name
  fi_pool : ∀ k s, alGet acc.symbols k = some s → s ∈ pool
  fi_name : ∀ k s, alGet acc.symbols k = some s → ¬ s.file = f →
    k ∈ entryOr acc.by_name s.name
  fi_file : ∀ k s, alGet acc.symbols k = some s → ¬ s.file = f →
    k ∈ entryOr acc.by_file s.file
  fi_pending : ∀ k s, alGet acc.symbols k = some s → s.file = f → k ∈ ks
  fi_name_store : ∀ n k, k ∈ entryOr acc.by_name n →
    ∃ s, alGet acc.symbols k = some s ∧ s.name = n
  fi_file_store : ∀ f' k, k ∈ entryOr acc.by_file f' →
    ∃ s, alGet acc.symbols k = some s ∧ s.file = f' ∧ ¬ f' = f
  fi_ks_file : ∀ k ∈ ks, ∀ s, alGet acc.symbols k = some s → s.file = f

-- ── Extractor (phase structure of `extract_all_symbols`) ─────────────

/-- The insertion phases of `symbols/parser.rs::extract_all_symbols`:
tree-sitter extraction itself is an external computation, so its per-file
results (`extraction`) and per-file call sites (`call_sites`) enter as
parameters; an unchanged project yields the same parameters on every run.
Phase 1 inserts every extracted symbol, phase 2 appends every call site. -/
def run_extractor (t : SymbolTable) (extraction : List (String × List Symbol'))
    (call_sites : List (String × List (String × Nat × String))) : SymbolTable :=
  let t1 := extraction.foldl (fun acc p => p.2.foldl SymbolTable.insert acc) t
  call_sites.foldl
    (fun acc p =>
      p.2.foldl (fun a c => SymbolTable.add_caller a c.1 p.1 c.2.1 c.2.2) acc)
    t1

/-- Membership of a key in the primary store. -/
def keyPresent (t : SymbolTable) (k : String) : Prop :=
  (alGet t.symbols k).isSome = true

-- ── History and sessions (`server/session.rs`, `ops/history.rs`) ─────

/-- A history entry; `DateTime<Utc>` timestamps are abstracted to `Nat`. -/
structure HistoryEntry where
  timestamp : Nat
  method : String
  path : String
  response_preview : String
deriving DecidableEq

/-- Result record of `compact_history`. -/
structure CompactResult where
  original_count : Nat
  compacted_count : Nat
  removed : Nat
deriving DecidableEq

/-- The summary entry built for a group of `n` consecutive same-`(method,
path)` entries: first member's timestamp, method and path, preview
`"[n calls compacted]"`. -/
def summaryOf (e : HistoryEntry) (n : Nat) : HistoryEntry :=
  { timestamp := e.timestamp, method := e.method, path := e.path,
    response_preview := "[" ++ toString n ++ " calls compacted]" }

/-- Inner state of the grouping loop of `compact_history`: `e` is the first
entry of the current run, `count` the entries of the run seen so far; each
further entry is compared against `e` exactly as the source compares
`to_compact[i + count]` against `current`. -/
def groupGo (e : HistoryEntry) (count : Nat) :
    List HistoryEntry → List HistoryEntry
  | [] => [if 1 < count then summaryOf e count else e]
  | x :: rest =>
      if x.method == e.method && x.path == e.path then
        groupGo e (count + 1) rest
      else
        (if 1 < count then summaryOf e count else e) :: groupGo x 1 rest

/-- The grouping loop of `compact_history` (`ops/history.rs` lines 79-102):
scan maximal runs of entries whose `(method, path)` equals that of the run's
first entry; a run of length `> 1` becomes a summary entry, a run of length
1 is emitted unchanged. -/
def compactGroups : List HistoryEntry → List HistoryEntry
  | [] => []
  | e :: rest => groupGo e 1 rest

/-- `compact_history` (`ops/history.rs` lines 54-115) on a session's
history list (session lookup by id is the caller's concern); returns the
result record and the session's new history. -/
def compact_history (history : List HistoryEntry) (keep_recent : Nat) :
    CompactResult × List HistoryEntry :=
  let total := history.length
  if total ≤ keep_recent then
    ({ original_count := total, compacted_count := total, removed := 0 }, history)
  else
    let split_point := total - keep_recent
    let to_compact := history.take split_point
    let recent := history.drop split_point
    let compacted := compactGroups to_compact
    let compacted_count := compacted.length + recent.length
    ({ original_count := total, compacted_count := compacted_count,
       removed := total - compacted_count }, compacted ++ recent)

-- ── UTF-8 byte-level string model ────────────────────────────────────

/-- UTF-8 byte length of a character list (Rust `str::len`). -/
def byteLen (l : List Char) : Nat :=
  (l.map Char.utf8Size).sum

/-- Byte-indexed prefix: `some` exactly when `n` bytes end on a character
boundary, in which case the result is the characters making up the first
`n` bytes.  Models the Rust byte slice `&s[..n]`, whose failure is a
panic. -/
def takeBytes : List Char → Nat → Option (List Char)
  | _, 0 => some []
  | [], _ + 1 => none
  | c :: cs, n + 1 =>
      if c.utf8Size ≤ n + 1 then
        (takeBytes cs (n + 1 - c.utf8Size)).map (fun l => c :: l)
      else none

/-- Split a character list at every newline, keeping all segments. -/
def splitNl : List Char → List (List Char)
  | [] => [[]]
  | c :: t =>
      if c = '\n' then [] :: splitNl t
      else
        match splitNl t with
        | [] => [[c]]
        | h :: r => (c :: h) :: r

/-- Strip one trailing carriage return (Rust `lines` treats `\r\n` as a
line ending). -/
def stripCr (l : List Char) : List Char :=
  if l.getLast? = some '\r' then l.dropLast else l

/-- Rust `str::lines`: split at `\n`, drop a final empty segment produced
by a trailing newline, strip a trailing `\r` from each line. -/
def rust_lines (s : List Char) : List (List Char) :=
  let segs := splitNl s
  (if segs.getLast? = some [] then segs.dropLast else segs).map stripCr

-- ── Buffers and sessions (`server/session.rs`) ───────────────────────

/-- Buffer provenance (`BufferSource`). -/
inductive BufferSource where
  | file (path : String) (start_line end_line : Nat)
  | symbol (name file : String)
  | grep (pattern : String)
  | subLmResult (query : String)
  | computed (description : String)
deriving DecidableEq

/-- A named per-session buffer; `created_at` timestamps are `Nat`. -/
structure Buffer where
  name : String
  content : String
  source : BufferSource
  created_at : Nat
deriving DecidableEq

/-- Metadata view of a buffer. -/
structure BufferInfo where
  name : String
  size_bytes : Nat
  line_count : Nat
  source : BufferSource
  preview : String
  created_at : Nat
deriving DecidableEq

/-- `BufferInfo::from_buffer` (`server/session.rs` lines 52-68).  The
source raw-slices the content at byte 200; when byte 200 is not a character
boundary the Rust slice panics, modelled by `none`. -/
def from_buffer (buf : Buffer) : Option BufferInfo :=
  let bytes := byteLen buf.content.data
  if 200 < bytes then
    (takeBytes buf.content.data 200).map (fun l =>
      { name := buf.name, size_bytes := bytes,
        line_count := (rust_lines buf.content.data).length,
        source := buf.source,
        preview := String.mk l ++ "...", created_at := buf.created_at })
  else
    some { name := buf.name, size_bytes := bytes,
           line_count := (rust_lines buf.content.data).length,
           source := buf.source,
           preview := buf.content, created_at := buf.created_at }

/-- A session (`server/session.rs`); the REPL state and project path are
irrelevant to the claims about `record` and omitted timestamps are `Nat`. -/
structure Session where
  id : String
  project_path : String
  created_at : Nat
  last_active : Nat
  history : List HistoryEntry
deriving DecidableEq

/-- `Session::record` (`server/session.rs` lines 111-123): bump
`last_active`, append one entry whose preview is raw-sliced at byte 200 and
suffixed with `"..."` when longer; the slice panics (`none`) when byte 200
is inside a character. -/
def record (s : Session) (now : Nat) (method path response_preview : String) :
    Option Session :=
  if 200 < byteLen response_preview.data then
    (takeBytes response_preview.data 200).map (fun l =>
      { s with last_active := now,
               history := s.history ++
                 [{ timestamp := now, method := method, path := path,
                    response_preview := String.mk l ++ "..." }] })
  else
    some { s with last_active := now,
                  history := s.history ++
                    [{ timestamp := now, method := method, path := path,
                       response_preview := response_preview }] }

/-- `buffer_from_file` (`ops/repl.rs` lines 33-75) with the file-tree
lookup and filesystem/PDF read abstracted into the `source` parameter:
split into lines, clamp both indices to the line count, slice
`[start, end)` and join with `\n`.  Rust's `lines[start..end]` panics when
the clamped `start` exceeds the clamped `end`, modelled by `none`. -/
def buffer_from_file (name file : String) (source : List Char)
    (start «end» : Nat) (now : Nat) : Option Buffer :=
  let lines := rust_lines source
  let total_lines := lines.length
  let start' := min start total_lines
  let end' := min «end» total_lines
  if start' ≤ end' then
    some { name := name,
           content := String.mk (List.intercalate ['\n']
             ((lines.drop start').take (end' - start'))),
           source := BufferSource.file file start' end',
           created_at := now }
  else none

-- ── PDF adapter (`index/pdf.rs`) ─────────────────────────────────────

/-- Filesystem-and-converter state seen by the PDF adapter for one request:
the source PDF's mtime (`none` when `fs::metadata` fails), the cache file
(mtime and contents; `none` when absent or unreadable), and the external
converter's markdown output (`none` covers a missing converter, a non-zero
exit, or non-UTF-8 output). -/
structure PdfFs where
  pdf_mtime : Option Nat
  cache : Option (Nat × String)
  converter_output : Option String
deriving DecidableEq

/-- `get_cached_markdown` (`index/pdf.rs` lines 15-27): the cached markdown
is returned exactly when both mtimes are readable and
`cache_mtime >= pdf_mtime`. -/
def get_cached_markdown (fs : PdfFs) : Option String :=
  match fs.pdf_mtime with
  | none => none
  | some pdf_mtime =>
      match fs.cache with
      | none => none
      | some (cache_mtime, content) =>
          if pdf_mtime ≤ cache_mtime then some content else none

/-- Result of one `convert_pdf` call: the returned markdown (`none` models
the error path), whether the external converter was invoked, and the
filesystem state afterwards. -/
structure ConvertOutcome where
  result : Option String
  invoked : Bool
  fs : PdfFs
deriving DecidableEq

/-- `convert_pdf` (`index/pdf.rs` lines 31-71): consult the cache first;
on a miss run the converter and write its output back to the cache path
(`now` is the written cache file's mtime). -/
def convert_pdf (fs : PdfFs) (now : Nat) : ConvertOutcome :=
  match get_cached_markdown fs with
  | some md => { result := some md, invoked := false, fs := fs }
  | none =>
      match fs.converter_output with
      | none => { result := none, invoked := true, fs := fs }
      | some markdown =>
          { result := some markdown, invoked := true,
            fs := { fs with cache := some (now, markdown) } }

-- ── Semantic chunker (`ops/repl.rs` lines 200-354) ───────────────────

/-- A semantic chunk;  the source file is modelled as its UTF-8 byte
sequence (`List Nat`), so `preview` is also a byte sequence. -/
structure SemanticChunk where
  index : Nat
  byte_start : Nat
  byte_end : Nat
  line_start : Nat
  line_end : Nat
  symbols : List String
  preview : List Nat
deriving DecidableEq

/-- Rust `str::is_char_boundary` on a byte sequence: position 0, the end of
the sequence, and any byte that is not a UTF-8 continuation byte
(`0x80..0xBF`). -/
def is_char_boundary (src : List Nat) (i : Nat) : Bool :=
  i == 0 || i == src.length ||
    (match src[i]? with
     | some b => decide (b < 128) || decide (192 ≤ b)
     | none => false)

/-- Largest boundary position at most `n`. -/
def floorCB (src : List Nat) : Nat → Nat
  | 0 => 0
  | n + 1 => if is_char_boundary src (n + 1) then n + 1 else floorCB src n

/-- Rust `str::floor_char_boundary`: clamp to the length, then round down
to a character boundary. -/
def floor_char_boundary (src : List Nat) (n : Nat) : Nat :=
  floorCB src (min n src.length)

/-- Index of the last occurrence of byte `b`, modelling `str::rfind`. -/
def lastIdxOf (b : Nat) : List Nat → Option Nat
  | [] => none
  | x :: t =>
      match lastIdxOf b t with
      | some i => some (i + 1)
      | none => if x == b then some 0 else none

/-- Rust `str::lines().count()` on a byte-sequence prefix: one line per
`\n` byte, plus a final line when the text does not end with `\n`. -/
def linesByteCount (p : List Nat) : Nat :=
  if p = [] then 0
  else p.count 10 + (if p.getLast? = some 10 then 0 else 1)

/-- `make_chunk` (`ops/repl.rs` lines 306-332): line numbers count the
lines of the prefix up to each boundary; the preview is the chunk's bytes,
truncated at the floor character boundary of 200 and suffixed with `...`
(bytes `46`) when longer than 200 bytes. -/
def make_chunk (source : List Nat) (index byte_start byte_end : Nat)
    (symbols : List String) : SemanticChunk :=
  let slice := (source.drop byte_start).take (byte_end - byte_start)
  { index := index, byte_start := byte_start, byte_end := byte_end,
    line_start := linesByteCount (source.take byte_start),
    line_end := linesByteCount (source.take byte_end),
    symbols := symbols,
    preview :=
      if 200 < slice.length then
        slice.take (floor_char_boundary slice 200) ++ [46, 46, 46]
      else slice }

/-- The symbol walk of `semantic_chunks` (`ops/repl.rs` lines 248-301),
one constructor case per loop iteration plus the final-chunk step.  The
three branches are the close-current-chunk test, the oversized-symbol
test (entered with the symbol list just cleared in the first branch), and
the default accumulate step; subtractions are truncated exactly as the
claims' hypotheses keep the Rust `usize` subtractions from underflowing. -/
def chunksGo (src : List Nat) (max_chunk_bytes : Nat) :
    List Symbol' → Nat → Nat → List String → List SemanticChunk
  | [], chunk_start, chunk_index, chunk_symbols =>
      if chunk_start < src.length then
        [make_chunk src chunk_index chunk_start src.length chunk_symbols]
      else []
  | sym :: rest, chunk_start, chunk_index, chunk_symbols =>
      let sym_start := sym.byteRange.1
      let sym_end := min sym.byteRange.2 src.length
      let sym_size := sym_end - sym_start
      if chunk_start < sym_start ∧ max_chunk_bytes < sym_end - chunk_start ∧
          chunk_symbols ≠ [] then
        if max_chunk_bytes < sym_size then
          make_chunk src chunk_index chunk_start sym_start chunk_symbols ::
          make_chunk src (chunk_index + 1) sym_start sym_end [sym.name] ::
          chunksGo src max_chunk_bytes rest sym_end (chunk_index + 2) []
        else
          make_chunk src chunk_index chunk_start sym_start chunk_symbols ::
          chunksGo src max_chunk_bytes rest sym_start (chunk_index + 1) [sym.name]
      else
        if max_chunk_bytes < sym_size ∧ chunk_symbols = [] then
          make_chunk src chunk_index sym_start sym_end [sym.name] ::
          chunksGo src max_chunk_bytes rest sym_end (chunk_index + 1) []
        else
          chunksGo src max_chunk_bytes rest chunk_start chunk_index
            (chunk_symbols ++ [sym.name])

/-- End position of one `simple_chunks` window (`ops/repl.rs` lines
340-346): at most `max_chunk_bytes` past `start`, rounded down to a
character boundary, and broken after the last newline when not at EOF. -/
def simple_next_end (src : List Nat) (max_chunk_bytes start : Nat) : Nat :=
  let e0 := floor_char_boundary src (start + max_chunk_bytes)
  if e0 < src.length then
    match lastIdxOf 10 ((src.drop start).take (e0 - start)) with
    | some nl => start + nl + 1
    | none => e0
  else e0

/-- The `simple_chunks` loop (`ops/repl.rs` lines 334-353) over window
start positions.  When a window makes no progress the Rust loop never
terminates (it pushes empty chunks forever, or panics when the rounded end
falls before `start`), modelled by `none`. -/
def simple_chunks_go (src : List Nat) (max_chunk_bytes : Nat)
    (start index : Nat) : Option (List SemanticChunk) :=
  if h : start < src.length then
    let e1 := simple_next_end src max_chunk_bytes start
    if h2 : start < e1 then
      (simple_chunks_go src max_chunk_bytes e1 (index + 1)).map
        (fun rest => make_chunk src index start e1 [] :: rest)
    else none
  else some []
termination_by src.length - start
decreasing_by omega

/-- `simple_chunks` (`ops/repl.rs` lines 334-353). -/
def simple_chunks (src : List Nat) (max_chunk_bytes : Nat) :
    Option (List SemanticChunk) :=
  simple_chunks_go src max_chunk_bytes 0 0

/-- Stable insertion of a symbol into a list sorted by `byte_range.0`. -/
def sortInsert (s : Symbol') : List Symbol' → List Symbol'
  | [] => [s]
  | t :: ts =>
      if t.byteRange.1 < s.byteRange.1 then t :: sortInsert s ts
      else s :: t :: ts

/-- Stable sort by `byte_range.0`, modelling
`file_symbols.sort_by_key(|s| s.byte_range.0)`. -/
def sort_by_key : List Symbol' → List Symbol'
  | [] => []
  | s :: ss => sortInsert s (sort_by_key ss)

/-- `semantic_chunks` (`ops/repl.rs` lines 213-304) with the file-tree
lookup and the file read abstracted: `source` is the file's byte sequence
and `file_symbols` the file's symbols as returned by `list_by_file`. -/
def semantic_chunks (source : List Nat) (file_symbols : List Symbol')
    (max_chunk_bytes : Nat) : Option (List SemanticChunk) :=
  let sorted := sort_by_key file_symbols
  if file_symbols = [] then simple_chunks source max_chunk_bytes
  else some (chunksGo source max_chunk_bytes sorted 0 0 [])

/-- A chunk that isolates an oversized symbol: its span exceeds the byte
budget and it carries exactly one symbol. -/
def oversized (max_chunk_bytes : Nat) (c : SemanticChunk) : Prop :=
  max_chunk_bytes < c.byte_end - c.byte_start ∧ c.symbols.length = 1

/-- Link between consecutive chunks: the next chunk starts at or after the
previous chunk's end, and contiguously so unless the next chunk isolates
an oversized symbol. -/
def gapLink (max_chunk_bytes : Nat) (c c' : SemanticChunk) : Prop :=
  c.byte_end ≤ c'.byte_start ∧
    (c.byte_end = c'.byte_start ∨ oversized max_chunk_bytes c')

-- ═══════════════════════ Theorems ═══════════════════════

/-- C10: when the history length is at most `keep_recent`, `compact_history`
returns counts `(len, len, 0)` and leaves the history unchanged. -/
theorem C10_compact_history_short_frame (history : List HistoryEntry)
    (keep_recent : Nat) (h : history.length ≤ keep_recent) :
    compact_history history keep_recent =
      ({ original_count := history.length,
         compacted_count := history.length, removed := 0 }, history) := by
  simp [compact_history, h]

/-- C10 witness: the frame theorem applied to a concrete one-entry history
with `keep_recent = 2`. -/
theorem C10_compact_history_short_frame_witness :
    ([({ timestamp := 0, method := "GET", path := "/p",
         response_preview := "ok" } : HistoryEntry)].length ≤ 2) ∧
    compact_history
      [{ timestamp := 0, method := "GET", path := "/p",
         response_preview := "ok" }] 2 =
      ({ original_count := 1, compacted_count := 1, removed := 0 },
       [{ timestamp := 0, method := "GET", path := "/p",
          response_preview := "ok" }]) :=
  ⟨by decide,
   C10_compact_history_short_frame
     [{ timestamp := 0, method := "GET", path := "/p",
        response_preview := "ok" }] 2 (by decide)⟩


/-- Helper: the grouping loop over a run of entries matching the current
first entry `e`, followed by a remainder that does not continue the run,
emits one entry for the whole run and then proceeds independently. -/
theorem groupGo_run :
    ∀ (r : List HistoryEntry) (e : HistoryEntry) (c : Nat)
      (t : List HistoryEntry),
      (∀ x ∈ r, x.method = e.method ∧ x.path = e.path) →
      (∀ h, t.head? = some h → ¬ (h.method = e.method ∧ h.path = e.path)) →
      groupGo e c (r ++ t) =
        (if 1 < c + r.length then summaryOf e (c + r.length) else e) ::
          compactGroups t := by
  intro r
  induction r with
  | nil =>
    intro e c t _ ht
    cases t with
    | nil => simp [groupGo, compactGroups]
    | cons h t' =>
      have hb : (h.method == e.method && h.path == e.path) = false := by
        have hh := ht h (by rfl)
        rcases Decidable.em (h.method = e.method) with h1 | h1
        · rcases Decidable.em (h.path = e.path) with h2 | h2
          · exact absurd ⟨h1, h2⟩ hh
          · simp [h1, h2]
        · simp [h1]
      simp [groupGo, compactGroups, hb]
  | cons a r' ih =>
    intro e c t hr ht
    have ha : (a.method == e.method && a.path == e.path) = true := by
      have := hr a (by simp)
      simp [this.1, this.2]
    simp only [List.cons_append, groupGo, ha, if_true, List.append_eq]
    rw [ih e (c + 1) t (fun x hx => hr x (by simp [hx])) ht]
    have hc : c + 1 + r'.length = c + (a :: r').length := by
      simp only [List.length_cons]; omega
    rw [hc]

/-- Helper: the grouping loop emits at most one entry per input entry plus
the pending run. -/
theorem groupGo_len :
    ∀ (l : List HistoryEntry) (e : HistoryEntry) (c : Nat),
      (groupGo e c l).length ≤ l.length + 1 := by
  intro l
  induction l with
  | nil => intro e c; simp [groupGo]
  | cons x rest ih =>
    intro e c
    simp only [groupGo]
    by_cases hb : (x.method == e.method && x.path == e.path) = true
    · simp only [hb, if_true]
      have := ih e (c + 1)
      simp only [List.length_cons]
      omega
    · simp only [Bool.not_eq_true] at hb
      simp only [hb, Bool.false_eq_true, if_false, List.length_cons]
      have := ih x 1
      omega

/-- Helper: the compacted prefix never lengthens. -/
theorem compactGroups_length_le (l : List HistoryEntry) :
    (compactGroups l).length ≤ l.length := by
  cases l with
  | nil => simp [compactGroups]
  | cons e rest =>
    simp only [compactGroups, List.length_cons]
    exact groupGo_len rest e 1

/-- C3: `compact_history` replaces each maximal run of consecutive entries
sharing `(method, path)` in the compacted prefix by one summary entry
(first member's timestamp, method, path, preview `"[N calls compacted]"`)
when the run's length exceeds 1 and emits runs of length 1 unchanged,
returns `removed = original_count - compacted_count` with
`compacted_count ≤ original_count`, preserves the last `keep_recent`
entries verbatim, and on the concrete history
`[GET /p/a, GET /p/a, GET /p/a, POST /q]` with `keep_recent = 1` returns
counts `{4, 2, 2}` with first remaining preview `"[3 calls compacted]"`. -/
theorem C3_compact_history_confirmed :
    (∀ (e : HistoryEntry) (r t : List HistoryEntry),
        (∀ x ∈ r, x.method = e.method ∧ x.path = e.path) →
        (∀ h, t.head? = some h → ¬ (h.method = e.method ∧ h.path = e.path)) →
        compactGroups (e :: (r ++ t)) =
          (if 0 < r.length then summaryOf e (r.length + 1) else e) ::
            compactGroups t) ∧
    (∀ (history : List HistoryEntry) (keep_recent : Nat),
        (compact_history history keep_recent).1.removed =
          (compact_history history keep_recent).1.original_count -
            (compact_history history keep_recent).1.compacted_count ∧
        (compact_history history keep_recent).1.compacted_count ≤
          (compact_history history keep_recent).1.original_count) ∧
    (∀ (history : List HistoryEntry) (keep_recent : Nat),
        ((compact_history history keep_recent).2).drop
            ((compact_history history keep_recent).2.length -
              min keep_recent history.length) =
          history.drop (history.length - min keep_recent history.length)) ∧
    compact_history
      [{ timestamp := 0, method := "GET", path := "/p/a", response_preview := "r0" },
       { timestamp := 1, method := "GET", path := "/p/a", response_preview := "r1" },
       { timestamp := 2, method := "GET", path := "/p/a", response_preview := "r2" },
       { timestamp := 3, method := "POST", path := "/q", response_preview := "r3" }] 1 =
      ({ original_count := 4, compacted_count := 2, removed := 2 },
       [{ timestamp := 0, method := "GET", path := "/p/a",
          response_preview := "[3 calls compacted]" },
        { timestamp := 3, method := "POST", path := "/q",
          response_preview := "r3" }]) := by
  refine ⟨?_, ?_, ?_, by decide⟩
  · intro e r t hr ht
    conv_lhs => rw [compactGroups]
    rw [groupGo_run r e 1 t hr ht]
    congr 1
    rcases Nat.eq_zero_or_pos r.length with h0 | h0
    · simp [h0]
    · have h1 : 1 < 1 + r.length := by omega
      have h2 : 1 + r.length = r.length + 1 := by omega
      simp [h0, h1, h2]
  · intro history keep
    by_cases h : history.length ≤ keep
    · simp [compact_history, h]
    · simp only [compact_history, h, if_false]
      refine ⟨trivial, ?_⟩
      have h1 := compactGroups_length_le (history.take (history.length - keep))
      have h2 : (history.take (history.length - keep)).length =
          history.length - keep := by
        simp only [List.length_take]; omega
      have h3 : (history.drop (history.length - keep)).length = keep := by
        simp only [List.length_drop]; omega
      omega
  · intro history keep
    by_cases h : history.length ≤ keep
    · have hk : min keep history.length = history.length := by omega
      simp [compact_history, h, hk]
    · have hk : min keep history.length = keep := by omega
      simp only [compact_history, h, if_false, hk]
      have h3 : (history.drop (history.length - keep)).length = keep := by
        simp only [List.length_drop]; omega
      have h4 : (compactGroups (history.take (history.length - keep)) ++
          history.drop (history.length - keep)).length =
          (compactGroups (history.take (history.length - keep))).length + keep := by
        simp [h3]
      rw [h4]
      have h5 : (compactGroups (history.take (history.length - keep))).length +
          keep - keep =
          (compactGroups (history.take (history.length - keep))).length := by omega
      rw [h5, ← h3, List.drop_left]

/-- C3 witness: the run-grouping clause of the theorem applied to a
concrete two-entry run with empty remainder. -/
theorem C3_compact_history_witness :
    (∀ x ∈ [({ timestamp := 1, method := "GET", path := "/a",
               response_preview := "r1" } : HistoryEntry)],
        x.method = ({ timestamp := 0, method := "GET", path := "/a",
                      response_preview := "r0" } : HistoryEntry).method ∧
        x.path = ({ timestamp := 0, method := "GET", path := "/a",
                    response_preview := "r0" } : HistoryEntry).path) ∧
    compactGroups
      [{ timestamp := 0, method := "GET", path := "/a", response_preview := "r0" },
       { timestamp := 1, method := "GET", path := "/a", response_preview := "r1" }] =
      [{ timestamp := 0, method := "GET", path := "/a",
         response_preview := "[2 calls compacted]" }] := by
  refine ⟨by decide, ?_⟩
  have h := C3_compact_history_confirmed.1
    { timestamp := 0, method := "GET", path := "/a", response_preview := "r0" }
    [{ timestamp := 1, method := "GET", path := "/a", response_preview := "r1" }]
    [] (by decide) (by intro x hx; simp at hx)
  exact h.trans (by decide)

set_option maxRecDepth 40000 in
/-- C9 counterexample: `BufferInfo::from_buffer` is not total.  On a buffer
whose content is 199 ASCII characters followed by `é` (201 bytes, with byte
200 inside the two-byte character) the raw slice `&content[..200]` is
undefined and the Rust code panics, modelled by `none`. -/
theorem C9_from_buffer_cex :
    from_buffer
      { name := "b",
        content := String.mk (List.replicate 199 'a' ++ ['é']),
        source := BufferSource.computed "d", created_at := 0 } = none := by
  decide

/-- C9 (amended): `from_buffer` returns the full content as preview when
the content is at most 200 bytes, returns the raw 200-byte slice suffixed
with `"..."` when the content is longer and byte 200 is a character
boundary, and is defined exactly in those two cases (it is not total: when
byte 200 falls inside a character the slice panics). -/
theorem C9_from_buffer_corrected (buf : Buffer) :
    (byteLen buf.content.data ≤ 200 →
      from_buffer buf =
        some { name := buf.name, size_bytes := byteLen buf.content.data,
               line_count := (rust_lines buf.content.data).length,
               source := buf.source, preview := buf.content,
               created_at := buf.created_at }) ∧
    (∀ l, 200 < byteLen buf.content.data →
      takeBytes buf.content.data 200 = some l →
      from_buffer buf =
        some { name := buf.name, size_bytes := byteLen buf.content.data,
               line_count := (rust_lines buf.content.data).length,
               source := buf.source, preview := String.mk l ++ "...",
               created_at := buf.created_at }) ∧
    ((from_buffer buf).isSome = true ↔
      byteLen buf.content.data ≤ 200 ∨
        (takeBytes buf.content.data 200).isSome = true) := by
  refine ⟨?_, ?_, ?_⟩
  · intro h
    have h' : ¬ 200 < byteLen buf.content.data := by omega
    simp [from_buffer, h']
  · intro l h hl
    simp [from_buffer, h, hl]
  · by_cases h : 200 < byteLen buf.content.data
    · simp only [from_buffer, h, if_true]
      cases htb : takeBytes buf.content.data 200 with
      | none => simp [htb]; omega
      | some l => simp [htb]
    · have h' : byteLen buf.content.data ≤ 200 := by omega
      simp [from_buffer, h, h']

/-- C9 witness: the short-content clause of the amended theorem applied to
a concrete buffer with two-byte content. -/
theorem C9_from_buffer_witness :
    byteLen ("hi" : String).data ≤ 200 ∧
    from_buffer
      { name := "b", content := "hi",
        source := BufferSource.computed "d", created_at := 0 } =
      some { name := "b", size_bytes := byteLen ("hi" : String).data,
             line_count := (rust_lines ("hi" : String).data).length,
             source := BufferSource.computed "d", preview := "hi",
             created_at := 0 } :=
  ⟨by decide,
   (C9_from_buffer_corrected
     { name := "b", content := "hi",
       source := BufferSource.computed "d", created_at := 0 }).1 (by decide)⟩

set_option maxRecDepth 40000 in
/-- C7 counterexample: `Session::record` does not truncate to the first 200
characters (it stores the first 200 bytes followed by `"..."`), and it is
not defined for every UTF-8 preview: when byte 200 falls inside a
character, the raw slice `&response_preview[..200]` is undefined and the
Rust code panics, modelled by `none`. -/
theorem C7_record_cex :
    ((record { id := "s", project_path := "/p", created_at := 0,
               last_active := 0, history := [] } 0 "GET" "/x"
        (String.mk (List.replicate 201 'a'))).map
      (fun s => s.history.map (fun e => e.response_preview))) =
      some [String.mk (List.replicate 200 'a') ++ "..."] ∧
    ¬ (String.mk (List.replicate 200 'a') ++ "..." =
        String.mk (List.replicate 200 'a')) ∧
    record { id := "s", project_path := "/p", created_at := 0,
             last_active := 0, history := [] } 0 "GET" "/x"
      (String.mk (List.replicate 199 'a' ++ ['é'])) = none := by
  refine ⟨by decide, by decide, by decide⟩

/-- C7 (amended): `record` appends exactly one entry carrying the given
method and path; the preview is stored unchanged when its UTF-8 byte
length is at most 200 and otherwise as its first 200 bytes suffixed with
`"..."`; the operation is defined exactly when the preview is at most 200
bytes or byte 200 is a character boundary. -/
theorem C7_record_corrected (s : Session) (now : Nat)
    (method path response_preview : String) :
    (byteLen response_preview.data ≤ 200 →
      record s now method path response_preview =
        some { s with last_active := now,
                      history := s.history ++
                        [{ timestamp := now, method := method, path := path,
                           response_preview := response_preview }] }) ∧
    (∀ l, 200 < byteLen response_preview.data →
      takeBytes response_preview.data 200 = some l →
      record s now method path response_preview =
        some { s with last_active := now,
                      history := s.history ++
                        [{ timestamp := now, method := method, path := path,
                           response_preview := String.mk l ++ "..." }] }) ∧
    ((record s now method path response_preview).isSome = true ↔
      byteLen response_preview.data ≤ 200 ∨
        (takeBytes response_preview.data 200).isSome = true) := by
  refine ⟨?_, ?_, ?_⟩
  · intro h
    have h' : ¬ 200 < byteLen response_preview.data := by omega
    simp [record, h']
  · intro l h hl
    simp [record, h, hl]
  · by_cases h : 200 < byteLen response_preview.data
    · simp only [record, h, if_true]
      cases htb : takeBytes response_preview.data 200 with
      | none => simp [htb]; omega
      | some l => simp [htb]
    · have h' : byteLen response_preview.data ≤ 200 := by omega
      simp [record, h, h']

/-- C7 witness: the short-preview clause of the amended theorem applied to
a concrete session and preview. -/
theorem C7_record_witness :
    byteLen ("ok" : String).data ≤ 200 ∧
    record { id := "s", project_path := "/p", created_at := 0,
             last_active := 0, history := [] } 7 "GET" "/x" "ok" =
      some { id := "s", project_path := "/p", created_at := 0,
             last_active := 7,
             history := [{ timestamp := 7, method := "GET", path := "/x",
                           response_preview := "ok" }] } :=
  ⟨by decide,
   (C7_record_corrected
     { id := "s", project_path := "/p", created_at := 0,
       last_active := 0, history := [] } 7 "GET" "/x" "ok").1 (by decide)⟩

set_option maxRecDepth 40000 in
/-- C4: `buffer_from_file` is claimed to clamp `[start, end)` and succeed
for every file; on a file with five lines and `start = 5`, `end = 3` the
clamped indices are `5 > 3` and the Rust slice `lines[5..3]` panics
(`none`), while on the one-line file of the spec scenario the clamped
slice is empty and a size-0 buffer is returned. -/
theorem C4_buffer_from_file_code_bug :
    buffer_from_file "b" "a.x" ("l1\nl2\nl3\nl4\nl5" : String).data 5 3 0 =
      none ∧
    (buffer_from_file "b" "a.x" ("fn foo(){}" : String).data 5 3 0).map
      (fun b => b.content) = some "" ∧
    (buffer_from_file "b" "a.x" ("fn foo(){}" : String).data 5 3 0).map
      (fun b => byteLen b.content.data) = some 0 := by
  refine ⟨by decide, by decide, by decide⟩

/-- C8: the converted-markdown cache is reused if and only if the cache
exists and its mtime is at least the source PDF's mtime; when reused,
`convert_pdf` returns the cached contents without invoking the converter
and leaves the state unchanged; on a cache miss the converter runs and its
output is written back to the cache. -/
theorem C8_pdf_cache_confirmed (fs : PdfFs) (now pdf_mtime : Nat)
    (hp : fs.pdf_mtime = some pdf_mtime) :
    ((convert_pdf fs now).invoked = false ↔
      ∃ cache_mtime content, fs.cache = some (cache_mtime, content) ∧
        pdf_mtime ≤ cache_mtime) ∧
    (∀ cache_mtime content, fs.cache = some (cache_mtime, content) →
      pdf_mtime ≤ cache_mtime →
      convert_pdf fs now =
        { result := some content, invoked := false, fs := fs }) ∧
    (get_cached_markdown fs = none → ∀ markdown,
      fs.converter_output = some markdown →
      convert_pdf fs now =
        { result := some markdown, invoked := true,
          fs := { fs with cache := some (now, markdown) } }) := by
  refine ⟨?_, ?_, ?_⟩
  · cases hc : fs.cache with
    | none =>
      have hg : get_cached_markdown fs = none := by
        simp [get_cached_markdown, hp, hc]
      cases hco : fs.converter_output with
      | none => simp [convert_pdf, hg, hco, hc]
      | some md => simp [convert_pdf, hg, hco, hc]
    | some p =>
      obtain ⟨cm, content⟩ := p
      by_cases hle : pdf_mtime ≤ cm
      · have hg : get_cached_markdown fs = some content := by
          simp [get_cached_markdown, hp, hc, hle]
        simp only [convert_pdf, hg]
        simp [hc, hle]
      · have hg : get_cached_markdown fs = none := by
          simp [get_cached_markdown, hp, hc, hle]
        cases hco : fs.converter_output with
        | none =>
          simp only [convert_pdf, hg, hco]
          simp [hc]
          omega
        | some md =>
          simp only [convert_pdf, hg, hco]
          simp [hc]
          omega
  · intro cm content hc hle
    have hg : get_cached_markdown fs = some content := by
      simp [get_cached_markdown, hp, hc, hle]
    simp [convert_pdf, hg]
  · intro hg markdown hco
    simp [convert_pdf, hg, hco]

/-- C8 witness: the cache-hit clause applied to a concrete state whose
cache mtime 7 is at least the PDF mtime 5. -/
theorem C8_pdf_cache_witness :
    ({ pdf_mtime := some 5, cache := some (7, "md"),
       converter_output := some "fresh" } : PdfFs).pdf_mtime = some 5 ∧
    ({ pdf_mtime := some 5, cache := some (7, "md"),
       converter_output := some "fresh" } : PdfFs).cache = some (7, "md") ∧
    5 ≤ 7 ∧
    convert_pdf
      { pdf_mtime := some 5, cache := some (7, "md"),
        converter_output := some "fresh" } 9 =
      { result := some "md", invoked := false,
        fs := { pdf_mtime := some 5, cache := some (7, "md"),
                converter_output := some "fresh" } } :=
  ⟨rfl, rfl, by omega,
   (C8_pdf_cache_confirmed
     { pdf_mtime := some 5, cache := some (7, "md"),
       converter_output := some "fresh" } 9 5 rfl).2.1 7 "md" rfl (by omega)⟩

/-- Helper: lookup after `eraseKey`. -/
theorem alGet_eraseKey (m : List (String × α)) (k k' : String) :
    alGet (eraseKey m k) k' = if k' = k then none else alGet m k' := by
  induction m with
  | nil =>
    simp only [eraseKey, List.filter_nil, alGet]
    split <;> rfl
  | cons p t ih =>
    simp only [eraseKey, List.filter_cons] at ih ⊢
    by_cases hp : p.1 = k
    · have hd : (decide (¬ p.1 = k)) = false := by simp [hp]
      simp only [hd, Bool.false_eq_true, if_false, ih]
      by_cases hk : k' = k
      · simp [hk]
      · have hpk : ¬ p.1 = k' := by
          rw [hp]; exact fun h => hk h.symm
        simp [hk, alGet, hpk]
    · have hd : (decide (¬ p.1 = k)) = true := by simp [hp]
      simp only [hd, if_true, alGet, ih]
      by_cases hpk : p.1 = k'
      · have hk : ¬ k' = k := fun h => hp (hpk.trans h)
        simp [hpk, hk]
      · simp [hpk]

/-- Helper: lookup after `alUpsert`. -/
theorem alGet_upsert (m : List (String × α)) (k k' : String) (v : α) :
    alGet (alUpsert m k v) k' = if k' = k then some v else alGet m k' := by
  simp only [alUpsert, alGet]
  by_cases h : k = k'
  · simp [h]
  · have h' : ¬ k' = k := fun hh => h hh.symm
    simp [h, h', alGet_eraseKey]

/-- Helper: membership in `setInsert`. -/
theorem mem_setInsert (y x : String) (s : List String) :
    y ∈ setInsert x s ↔ y = x ∨ y ∈ s := by
  by_cases h : x ∈ s
  · simp only [setInsert, h, if_true]
    exact ⟨Or.inr, fun h' => h'.elim (fun e => e ▸ h) id⟩
  · simp only [setInsert, h, if_false, List.mem_append, List.mem_singleton]
    tauto

/-- Helper: index entry after `mapInsertSet`. -/
theorem entryOr_mapInsertSet (m : List (String × List String)) (k x k' : String) :
    entryOr (mapInsertSet m k x) k' =
      if k' = k then setInsert x (entryOr m k) else entryOr m k' := by
  simp only [mapInsertSet, entryOr, alGet_upsert]
  split <;> rfl

/-- Helper: key presence after one `SymbolTable.insert`. -/
theorem keyPresent_insert (t : SymbolTable) (s : Symbol') (k : String) :
    keyPresent (SymbolTable.insert t s) k ↔
      k = make_key s.file s.name ∨ keyPresent t k := by
  simp only [keyPresent, SymbolTable.insert, alGet_upsert]
  by_cases h : k = make_key s.file s.name <;> simp [h]

/-- Helper: key presence after folding `SymbolTable.insert` over a list. -/
theorem keyPresent_foldl_insert (L : List Symbol') :
    ∀ (t : SymbolTable) (k : String),
      keyPresent (L.foldl SymbolTable.insert t) k ↔
        (∃ s ∈ L, k = make_key s.file s.name) ∨ keyPresent t k := by
  induction L with
  | nil => intro t k; simp
  | cons s L' ih =>
    intro t k
    simp only [List.foldl_cons]
    rw [ih, keyPresent_insert]
    constructor
    · rintro (⟨x, hx, hk⟩ | (hk | hp))
      · exact Or.inl ⟨x, List.mem_cons_of_mem _ hx, hk⟩
      · exact Or.inl ⟨s, List.mem_cons_self s L', hk⟩
      · exact Or.inr hp
    · rintro (⟨x, hx, hk⟩ | hp)
      · rcases List.mem_cons.mp hx with he | hx'
        · exact Or.inr (Or.inl (by rw [hk, he]))
        · exact Or.inl ⟨x, hx', hk⟩
      · exact Or.inr (Or.inr hp)

/-- Helper: key presence after phase 1 of the extractor. -/
theorem keyPresent_phase1 (ex : List (String × List Symbol')) :
    ∀ (t : SymbolTable) (k : String),
      keyPresent (ex.foldl (fun acc p => p.2.foldl SymbolTable.insert acc) t) k ↔
        (∃ p ∈ ex, ∃ s ∈ p.2, k = make_key s.file s.name) ∨ keyPresent t k := by
  induction ex with
  | nil => intro t k; simp
  | cons p ex' ih =>
    intro t k
    simp only [List.foldl_cons]
    rw [ih, keyPresent_foldl_insert]
    constructor
    · rintro (⟨q, hq, hs⟩ | (⟨s, hs, hk⟩ | hp))
      · exact Or.inl ⟨q, List.mem_cons_of_mem _ hq, hs⟩
      · exact Or.inl ⟨p, List.mem_cons_self p ex', s, hs, hk⟩
      · exact Or.inr hp
    · rintro (⟨q, hq, s, hs, hk⟩ | hp)
      · rcases List.mem_cons.mp hq with he | hq'
        · exact Or.inr (Or.inl ⟨s, he ▸ hs, hk⟩)
        · exact Or.inl ⟨q, hq', s, hs, hk⟩
      · exact Or.inr (Or.inr hp)

/-- Helper: appending caller references never touches the primary store. -/
theorem foldl_add_caller_symbols
    (l : List (String × Nat × String)) (f : String) :
    ∀ t : SymbolTable,
      (l.foldl (fun a c => SymbolTable.add_caller a c.1 f c.2.1 c.2.2) t).symbols =
        t.symbols := by
  induction l with
  | nil => intro t; rfl
  | cons c l' ih => intro t; simp only [List.foldl_cons]; rw [ih]; rfl

/-- Helper: phase 2 of the extractor never touches the primary store. -/
theorem phase2_symbols (cs : List (String × List (String × Nat × String))) :
    ∀ t : SymbolTable,
      (cs.foldl
        (fun acc p =>
          p.2.foldl (fun a c => SymbolTable.add_caller a c.1 p.1 c.2.1 c.2.2) acc)
        t).symbols = t.symbols := by
  induction cs with
  | nil => intro t; rfl
  | cons p cs' ih =>
    intro t
    simp only [List.foldl_cons]
    rw [ih, foldl_add_caller_symbols]

/-- Helper: key presence after one whole extractor run. -/
theorem keyPresent_run_extractor (t : SymbolTable)
    (ex : List (String × List Symbol'))
    (cs : List (String × List (String × Nat × String))) (k : String) :
    keyPresent (run_extractor t ex cs) k ↔
      (∃ p ∈ ex, ∃ s ∈ p.2, k = make_key s.file s.name) ∨ keyPresent t k := by
  have h2 : (run_extractor t ex cs).symbols =
      (ex.foldl (fun acc p => p.2.foldl SymbolTable.insert acc) t).symbols := by
    simp only [run_extractor]
    exact phase2_symbols cs _
  have : keyPresent (run_extractor t ex cs) k ↔
      keyPresent (ex.foldl (fun acc p => p.2.foldl SymbolTable.insert acc) t) k := by
    simp only [keyPresent, h2]
  rw [this, keyPresent_phase1]

/-- C5: re-running the extractor with the same per-file extraction results
and call sites (an unchanged project) leaves the primary key set of the
symbol table unchanged, because per-key insertion overwrites. -/
theorem C5_extractor_idempotent (t : SymbolTable)
    (extraction : List (String × List Symbol'))
    (call_sites : List (String × List (String × Nat × String)))
    (k : String) :
    keyPresent (run_extractor (run_extractor t extraction call_sites)
        extraction call_sites) k ↔
      keyPresent (run_extractor t extraction call_sites) k := by
  simp only [keyPresent_run_extractor]
  generalize (∃ p ∈ extraction, ∃ s ∈ p.2, k = make_key s.file s.name) = E
  tauto

/-- C6 counterexample: with `limit = 0`, `search` still returns one match,
because the source pushes the result before checking `results.len() >=
limit`; the claimed bound `at most limit` fails at `limit = 0`. -/
theorem C6_search_cex :
    (SymbolTable.search
      { symbols := [("f::a",
          { name := "a", kind := SymbolKind.function, file := "f",
            byteRange := (0, 1), lineRange := (1, 1), language := Lang.rust,
            signature := "fn a", definition := none, parent := none })],
        by_name := [("a", ["f::a"])], by_file := [("f", ["f::a"])],
        reverse_call_graph := [] } "a" 0).length = 1 := by
  decide

/-- Helper: the search loop keeps the result count below `max limit 1`
when it starts below the limit or empty. -/
theorem searchLoop_len_max (queryLower : List Char) (limit : Nat) :
    ∀ (entries : List (String × Symbol')) (acc : List Symbol'),
      (acc.length < limit ∨ acc.length = 0) →
      (searchLoop queryLower limit entries acc).length ≤ max limit 1 := by
  intro entries
  induction entries with
  | nil =>
    intro acc hacc
    simp only [searchLoop]
    rcases hacc with h | h <;> omega
  | cons e rest ih =>
    intro acc hacc
    obtain ⟨_, s⟩ := e
    simp only [searchLoop]
    by_cases hm : hasSub queryLower (lowerChars s.name.data) = true
    · simp only [hm, if_true]
      by_cases hstop : limit ≤ (acc ++ [s]).length
      · rw [if_pos hstop]
        simp only [List.length_append, List.length_singleton] at hstop ⊢
        rcases hacc with h | h <;> omega
      · rw [if_neg hstop]
        apply ih
        left
        simp only [List.length_append, List.length_singleton] at hstop ⊢
        omega
    · simp only [Bool.not_eq_true] at hm
      simp only [hm, Bool.false_eq_true, if_false]
      exact ih acc hacc

/-- Helper: the search loop respects the limit once below it. -/
theorem searchLoop_len_lt (queryLower : List Char) (limit : Nat) :
    ∀ (entries : List (String × Symbol')) (acc : List Symbol'),
      acc.length < limit →
      (searchLoop queryLower limit entries acc).length ≤ limit := by
  intro entries
  induction entries with
  | nil => intro acc hacc; simp only [searchLoop]; omega
  | cons e rest ih =>
    intro acc hacc
    obtain ⟨_, s⟩ := e
    simp only [searchLoop]
    by_cases hm : hasSub queryLower (lowerChars s.name.data) = true
    · simp only [hm, if_true]
      by_cases hstop : limit ≤ (acc ++ [s]).length
      · rw [if_pos hstop]
        simp only [List.length_append, List.length_singleton] at hstop ⊢
        omega
      · rw [if_neg hstop]
        apply ih
        simp only [List.length_append, List.length_singleton] at hstop ⊢
        omega
    · simp only [Bool.not_eq_true] at hm
      simp only [hm, Bool.false_eq_true, if_false]
      exact ih acc hacc

/-- Helper: everything the search loop returns either was in the
accumulator or matches the lowered query. -/
theorem searchLoop_mem (queryLower : List Char) (limit : Nat) :
    ∀ (entries : List (String × Symbol')) (acc : List Symbol')
      (s : Symbol'), s ∈ searchLoop queryLower limit entries acc →
      s ∈ acc ∨ hasSub queryLower (lowerChars s.name.data) = true := by
  intro entries
  induction entries with
  | nil => intro acc s hs; exact Or.inl hs
  | cons e rest ih =>
    intro acc s hs
    obtain ⟨_, x⟩ := e
    simp only [searchLoop] at hs
    by_cases hm : hasSub queryLower (lowerChars x.name.data) = true
    · simp only [hm, if_true] at hs
      by_cases hstop : limit ≤ (acc ++ [x]).length
      · rw [if_pos hstop] at hs
        rcases List.mem_append.mp hs with h | h
        · exact Or.inl h
        · right
          rw [List.mem_singleton.mp h]
          exact hm
      · rw [if_neg hstop] at hs
        rcases ih (acc ++ [x]) s hs with h | h
        · rcases List.mem_append.mp h with h' | h'
          · exact Or.inl h'
          · right
            rw [List.mem_singleton.mp h']
            exact hm
        · exact Or.inr h
    · simp only [Bool.not_eq_true] at hm
      simp only [hm, Bool.false_eq_true, if_false] at hs
      exact ih acc s hs

/-- C6 (amended): `search` returns at most `limit` symbols for every
`limit >= 1` (and at most one symbol when `limit = 0`, not zero: the
source pushes a match before checking the bound), every returned symbol's
lowered name contains the lowered query as a substring, and the result is
a function of the primary store alone, hence deterministic on an
unchanging table. -/
theorem C6_search_corrected (t : SymbolTable) (query : String) (limit : Nat) :
    (SymbolTable.search t query limit).length ≤ max limit 1 ∧
    (1 ≤ limit → (SymbolTable.search t query limit).length ≤ limit) ∧
    (∀ s ∈ SymbolTable.search t query limit,
        hasSub (lowerChars query.data) (lowerChars s.name.data) = true) ∧
    (∀ t' : SymbolTable, t'.symbols = t.symbols →
        SymbolTable.search t' query limit = SymbolTable.search t query limit) := by
  refine ⟨?_, ?_, ?_, ?_⟩
  · exact searchLoop_len_max _ _ t.symbols [] (Or.inr rfl)
  · intro hl
    exact searchLoop_len_lt _ _ t.symbols [] (by simp; omega)
  · intro s hs
    rcases searchLoop_mem _ _ t.symbols [] s hs with h | h
    · simp at h
    · exact h
  · intro t' h
    simp only [SymbolTable.search, h]

/-- C6 witness: the `limit >= 1` bound applied to a concrete one-symbol
table with `limit = 1`. -/
theorem C6_search_witness :
    1 ≤ 1 ∧
    (SymbolTable.search
      { symbols := [("f::a",
          { name := "a", kind := SymbolKind.function, file := "f",
            byteRange := (0, 1), lineRange := (1, 1), language := Lang.rust,
            signature := "fn a", definition := none, parent := none })],
        by_name := [("a", ["f::a"])], by_file := [("f", ["f::a"])],
        reverse_call_graph := [] } "a" 1).length ≤ 1 :=
  ⟨by decide,
   (C6_search_corrected
     { symbols := [("f::a",
         { name := "a", kind := SymbolKind.function, file := "f",
           byteRange := (0, 1), lineRange := (1, 1), language := Lang.rust,
           signature := "fn a", definition := none, parent := none })],
       by_name := [("a", ["f::a"])], by_file := [("f", ["f::a"])],
       reverse_call_graph := [] } "a" 1).2.1 (by decide)⟩

/-- Helper: index entry after `eraseKey`. -/
theorem entryOr_eraseKey (m : List (String × List α)) (k k' : String) :
    entryOr (eraseKey m k) k' = if k' = k then [] else entryOr m k' := by
  simp only [entryOr, alGet_eraseKey]
  split <;> rfl

/-- Helper: membership in a key-removal filter. -/
theorem mem_filter_ne (x key : String) (l : List String) :
    x ∈ l.filter (fun y => decide (¬ y = key)) ↔ x ∈ l ∧ ¬ x = key := by
  simp [List.mem_filter]

/-- Helper: index entry after `nameSetRemove`. -/
theorem entryOr_nameSetRemove (m : List (String × List String))
    (n key n' : String) :
    entryOr (nameSetRemove m n key) n' =
      if n' = n then (entryOr m n).filter (fun x => decide (¬ x = key))
      else entryOr m n' := by
  simp only [nameSetRemove]
  cases hg : alGet m n with
  | none =>
    have he : entryOr m n = [] := by simp [entryOr, hg]
    by_cases hn : n' = n
    · rw [if_pos hn, he, hn]
      simp [he]
    · rw [if_neg hn]
  | some s =>
    dsimp only
    have hes : entryOr m n = s := by simp [entryOr, hg]
    by_cases hs' : s.filter (fun x => decide (¬ x = key)) = []
    · rw [if_pos hs', entryOr_eraseKey]
      by_cases hn : n' = n
      · rw [if_pos hn, if_pos hn, hes, hs']
      · rw [if_neg hn, if_neg hn]
    · rw [if_neg hs']
      simp only [entryOr, alGet_upsert]
      by_cases hn : n' = n
      · rw [if_pos hn, if_pos hn, hg]
        rfl
      · rw [if_neg hn, if_neg hn]

/-- Helper: the empty table satisfies the strengthened invariant. -/
theorem sinv_empty (A : List Symbol') : SInv SymbolTable.empty A := by
  constructor
  · intro k s h; simp [SymbolTable.empty, alGet] at h
  · intro k s h; simp [SymbolTable.empty, alGet] at h
  · intro k s h; simp [SymbolTable.empty, alGet] at h
  · intro k s h; simp [SymbolTable.empty, alGet] at h
  · intro n k hk; simp [SymbolTable.empty, entryOr, alGet] at hk
  · intro f k hk; simp [SymbolTable.empty, entryOr, alGet] at hk

/-- Helper: the strengthened invariant only mentions the three symbol
fields, so it transports along tables equal on those fields. -/
theorem sinv_congr (t u : SymbolTable) (A : List Symbol')
    (h1 : u.symbols = t.symbols) (h2 : u.by_name = t.by_name)
    (h3 : u.by_file = t.by_file) (hI : SInv t A) : SInv u A := by
  constructor
  · intro k s h; rw [h1] at h; exact hI.store_key k s h
  · intro k s h; rw [h1] at h; exact hI.store_pool k s h
  · intro k s h; rw [h1] at h; rw [h2]; exact hI.store_name k s h
  · intro k s h; rw [h1] at h; rw [h3]; exact hI.store_file k s h
  · intro n k hk; rw [h2] at hk; rw [h1]; exact hI.name_store n k hk
  · intro f k hk; rw [h3] at hk; rw [h1]; exact hI.file_store f k hk

/-- Helper: `SymbolTable.insert` preserves the strengthened invariant when
the inserted symbol belongs to a key-coherent pool. -/
theorem sinv_insert (t : SymbolTable) (A : List Symbol') (sy : Symbol')
    (hA : KeyCoherent A) (hs : sy ∈ A) (hI : SInv t A) :
    SInv (SymbolTable.insert t sy) A := by
  have hsy : (SymbolTable.insert t sy).symbols =
      alUpsert t.symbols (make_key sy.file sy.name) sy := rfl
  have hbn : (SymbolTable.insert t sy).by_name =
      mapInsertSet t.by_name sy.name (make_key sy.file sy.name) := rfl
  have hbf : (SymbolTable.insert t sy).by_file =
      mapInsertSet t.by_file sy.file (make_key sy.file sy.name) := rfl
  constructor
  · intro k s h
    rw [hsy, alGet_upsert] at h
    by_cases hk : k = make_key sy.file sy.name
    · rw [if_pos hk] at h
      injection h with h'
      subst h'
      exact hk
    · rw [if_neg hk] at h
      exact hI.store_key k s h
  · intro k s h
    rw [hsy, alGet_upsert] at h
    by_cases hk : k = make_key sy.file sy.name
    · rw [if_pos hk] at h
      injection h with h'
      subst h'
      exact hs
    · rw [if_neg hk] at h
      exact hI.store_pool k s h
  · intro k s h
    rw [hsy, alGet_upsert] at h
    rw [hbn, entryOr_mapInsertSet]
    by_cases hk : k = make_key sy.file sy.name
    · rw [if_pos hk] at h
      injection h with h'
      subst h'
      rw [if_pos rfl]
      exact (mem_setInsert k _ _).mpr (Or.inl hk)
    · rw [if_neg hk] at h
      have hold := hI.store_name k s h
      by_cases hn : s.name = sy.name
      · rw [if_pos hn]
        rw [hn] at hold
        exact (mem_setInsert k _ _).mpr (Or.inr hold)
      · rw [if_neg hn]
        exact hold
  · intro k s h
    rw [hsy, alGet_upsert] at h
    rw [hbf, entryOr_mapInsertSet]
    by_cases hk : k = make_key sy.file sy.name
    · rw [if_pos hk] at h
      injection h with h'
      subst h'
      rw [if_pos rfl]
      exact (mem_setInsert k _ _).mpr (Or.inl hk)
    · rw [if_neg hk] at h
      have hold := hI.store_file k s h
      by_cases hn : s.file = sy.file
      · rw [if_pos hn]
        rw [hn] at hold
        exact (mem_setInsert k _ _).mpr (Or.inr hold)
      · rw [if_neg hn]
        exact hold
  · intro n k hk
    rw [hbn, entryOr_mapInsertSet] at hk
    rw [hsy]
    by_cases hn : n = sy.name
    · rw [if_pos hn] at hk
      rcases (mem_setInsert k _ _).mp hk with he | hm
      · exact ⟨sy, by rw [alGet_upsert, if_pos he], hn.symm⟩
      · by_cases he : k = make_key sy.file sy.name
        · exact ⟨sy, by rw [alGet_upsert, if_pos he], hn.symm⟩
        · obtain ⟨s0, hs0, hname⟩ := hI.name_store sy.name k hm
          exact ⟨s0, by rw [alGet_upsert, if_neg he]; exact hs0,
            hname.trans hn.symm⟩
    · rw [if_neg hn] at hk
      obtain ⟨s0, hs0, hname⟩ := hI.name_store n k hk
      by_cases he : k = make_key sy.file sy.name
      · have hkey := hI.store_key k s0 hs0
        have h0A := hI.store_pool k s0 hs0
        have heq : make_key s0.file s0.name = make_key sy.file sy.name := by
          rw [← hkey]; exact he
        obtain ⟨_, hn0⟩ := hA s0 h0A sy hs heq
        exact absurd (hname.symm.trans hn0) hn
      · exact ⟨s0, by rw [alGet_upsert, if_neg he]; exact hs0, hname⟩
  · intro f k hk
    rw [hbf, entryOr_mapInsertSet] at hk
    rw [hsy]
    by_cases hn : f = sy.file
    · rw [if_pos hn] at hk
      rcases (mem_setInsert k _ _).mp hk with he | hm
      · exact ⟨sy, by rw [alGet_upsert, if_pos he], hn.symm⟩
      · by_cases he : k = make_key sy.file sy.name
        · exact ⟨sy, by rw [alGet_upsert, if_pos he], hn.symm⟩
        · obtain ⟨s0, hs0, hfile⟩ := hI.file_store sy.file k hm
          exact ⟨s0, by rw [alGet_upsert, if_neg he]; exact hs0,
            hfile.trans hn.symm⟩
    · rw [if_neg hn] at hk
      obtain ⟨s0, hs0, hfile⟩ := hI.file_store f k hk
      by_cases he : k = make_key sy.file sy.name
      · have hkey := hI.store_key k s0 hs0
        have h0A := hI.store_pool k s0 hs0
        have heq : make_key s0.file s0.name = make_key sy.file sy.name := by
          rw [← hkey]; exact he
        obtain ⟨hf0, _⟩ := hA s0 h0A sy hs heq
        exact absurd (hfile.symm.trans hf0) hn
      · exact ⟨s0, by rw [alGet_upsert, if_neg he]; exact hs0, hfile⟩

/-- Helper: splitting a successful lookup after `eraseKey`. -/
theorem alGet_eraseKey_some (m : List (String × α)) (k k' : String) (v : α)
    (h : alGet (eraseKey m k) k' = some v) :
    ¬ k' = k ∧ alGet m k' = some v := by
  rw [alGet_eraseKey] at h
  by_cases hk : k' = k
  · rw [if_pos hk] at h
    exact absurd h (by simp)
  · rw [if_neg hk] at h
    exact ⟨hk, h⟩

/-- Helper: one step of the `remove_file` key loop preserves the loop
invariant. -/
theorem foldInv_step (f k : String) (ks : List String) (acc : SymbolTable)
    (A : List Symbol') (h : FoldInv f (k :: ks) acc A) :
    FoldInv f ks (remove_key_step acc k) A := by
  cases halG : alGet acc.symbols k with
  | none =>
    have hstep : remove_key_step acc k = acc := by
      simp [remove_key_step, halG]
    rw [hstep]
    constructor
    · exact h.fi_key
    · exact h.fi_pool
    · exact h.fi_name
    · exact h.fi_file
    · intro k' s h' hf
      rcases List.mem_cons.mp (h.fi_pending k' s h' hf) with he | hm
      · rw [he, halG] at h'
        exact absurd h' (by simp)
      · exact hm
    · exact h.fi_name_store
    · exact h.fi_file_store
    · intro k' hk' s h'
      exact h.fi_ks_file k' (List.mem_cons_of_mem _ hk') s h'
  | some sym =>
    have hfile : sym.file = f :=
      h.fi_ks_file k (List.mem_cons_self k ks) sym halG
    have hstep : remove_key_step acc k =
        { acc with symbols := eraseKey acc.symbols k,
                   by_name := nameSetRemove acc.by_name sym.name k } := by
      simp [remove_key_step, halG]
    rw [hstep]
    constructor
    · intro k' s h'
      obtain ⟨_, h''⟩ := alGet_eraseKey_some _ _ _ _ h'
      exact h.fi_key k' s h''
    · intro k' s h'
      obtain ⟨_, h''⟩ := alGet_eraseKey_some _ _ _ _ h'
      exact h.fi_pool k' s h''
    · intro k' s h' hnf
      obtain ⟨hk', h''⟩ := alGet_eraseKey_some _ _ _ _ h'
      have hold := h.fi_name k' s h'' hnf
      rw [entryOr_nameSetRemove]
      by_cases hn : s.name = sym.name
      · rw [if_pos hn]
        rw [hn] at hold
        exact (mem_filter_ne k' k _).mpr ⟨hold, hk'⟩
      · rw [if_neg hn]
        exact hold
    · intro k' s h' hnf
      obtain ⟨_, h''⟩ := alGet_eraseKey_some _ _ _ _ h'
      exact h.fi_file k' s h'' hnf
    · intro k' s h' hf
      obtain ⟨hk', h''⟩ := alGet_eraseKey_some _ _ _ _ h'
      rcases List.mem_cons.mp (h.fi_pending k' s h'' hf) with he | hm
      · exact absurd he hk'
      · exact hm
    · intro n k' hk'
      rw [entryOr_nameSetRemove] at hk'
      by_cases hn : n = sym.name
      · rw [if_pos hn] at hk'
        obtain ⟨hmem, hkne⟩ := (mem_filter_ne k' k _).mp hk'
        obtain ⟨s0, hs0, hname⟩ := h.fi_name_store sym.name k' hmem
        exact ⟨s0, by rw [alGet_eraseKey, if_neg hkne]; exact hs0,
          hname.trans hn.symm⟩
      · rw [if_neg hn] at hk'
        obtain ⟨s0, hs0, hname⟩ := h.fi_name_store n k' hk'
        have hkne : ¬ k' = k := by
          intro he
          rw [he, halG] at hs0
          injection hs0 with h0
          have : sym.name = n := by rw [h0]; exact hname
          exact hn this.symm
        exact ⟨s0, by rw [alGet_eraseKey, if_neg hkne]; exact hs0, hname⟩
    · intro f' k' hk'
      obtain ⟨s0, hs0, hf0, hne⟩ := h.fi_file_store f' k' hk'
      have hkne : ¬ k' = k := by
        intro he
        rw [he, halG] at hs0
        injection hs0 with h0
        have : f' = f := by rw [← hf0, ← h0]; exact hfile
        exact hne this
      exact ⟨s0, by rw [alGet_eraseKey, if_neg hkne]; exact hs0, hf0, hne⟩
    · intro k' hk' s h'
      obtain ⟨_, h''⟩ := alGet_eraseKey_some _ _ _ _ h'
      exact h.fi_ks_file k' (List.mem_cons_of_mem _ hk') s h''

/-- Helper: the whole `remove_file` key loop preserves the loop invariant,
ending with no pending keys. -/
theorem foldInv_fold (f : String) (A : List Symbol') :
    ∀ (ks : List String) (acc : SymbolTable), FoldInv f ks acc A →
      FoldInv f [] (ks.foldl remove_key_step acc) A := by
  intro ks
  induction ks with
  | nil => intro acc h; exact h
  | cons k ks' ih =>
    intro acc h
    simp only [List.foldl_cons]
    exact ih _ (foldInv_step f k ks' acc A h)

/-- Helper: establishing the loop invariant at the start of the key loop. -/
theorem foldInv_init (t1 : SymbolTable) (A : List Symbol') (f : String)
    (keys : List String) (hI : SInv t1 A)
    (hbf : alGet t1.by_file f = some keys) :
    FoldInv f keys { t1 with by_file := eraseKey t1.by_file f } A := by
  have hkeys : entryOr t1.by_file f = keys := by simp [entryOr, hbf]
  constructor
  · exact hI.store_key
  · exact hI.store_pool
  · intro k s h _
    exact hI.store_name k s h
  · intro k s h hnf
    have := hI.store_file k s h
    show k ∈ entryOr (eraseKey t1.by_file f) s.file
    rw [entryOr_eraseKey, if_neg hnf]
    exact this
  · intro k s h hf
    have := hI.store_file k s h
    rw [hf, hkeys] at this
    exact this
  · exact hI.name_store
  · intro f' k hk
    have hk' : k ∈ entryOr (eraseKey t1.by_file f) f' := hk
    rw [entryOr_eraseKey] at hk'
    by_cases hf' : f' = f
    · rw [if_pos hf'] at hk'
      exact absurd hk' (by simp)
    · rw [if_neg hf'] at hk'
      obtain ⟨s, hs, hfile⟩ := hI.file_store f' k hk'
      exact ⟨s, hs, hfile, hf'⟩
  · intro k hk s hs
    have hs' : alGet t1.symbols k = some s := hs
    obtain ⟨s0, hs0, hf0⟩ := hI.file_store f k (by rw [hkeys]; exact hk)
    rw [hs'] at hs0
    injection hs0 with h0
    rw [← h0] at hf0
    exact hf0

/-- Helper: reading the invariant back at the end of the key loop. -/
theorem foldInv_end (f : String) (acc : SymbolTable) (A : List Symbol')
    (h : FoldInv f [] acc A) :
    SInv acc A ∧
    (∀ k s, alGet acc.symbols k = some s → ¬ s.file = f) ∧
    entryOr acc.by_file f = [] := by
  have hnof : ∀ k s, alGet acc.symbols k = some s → ¬ s.file = f := by
    intro k s hs hf
    have := h.fi_pending k s hs hf
    simp at this
  refine ⟨⟨h.fi_key, h.fi_pool, ?_, ?_, ?_, ?_⟩, hnof, ?_⟩
  · intro k s hs
    exact h.fi_name k s hs (hnof k s hs)
  · intro k s hs
    exact h.fi_file k s hs (hnof k s hs)
  · exact h.fi_name_store
  · intro f' k hk
    obtain ⟨s, hs, hf', _⟩ := h.fi_file_store f' k hk
    exact ⟨s, hs, hf'⟩
  · rw [List.eq_nil_iff_forall_not_mem]
    intro k hk
    obtain ⟨s, hs, hf', hne⟩ := h.fi_file_store f k hk
    exact hne rfl

/-- Helper: `remove_file` preserves the strengthened invariant, removes
every record of the file and empties its `by_file` entry. -/
theorem sinv_remove_file (t : SymbolTable) (A : List Symbol') (f : String)
    (hI : SInv t A) :
    SInv (SymbolTable.remove_file t f) A ∧
    (∀ k s, alGet (SymbolTable.remove_file t f).symbols k = some s →
      ¬ s.file = f) ∧
    entryOr (SymbolTable.remove_file t f).by_file f = [] := by
  have ht1 : SInv (SymbolTable.remove_callers_from_file t f) A :=
    sinv_congr t (SymbolTable.remove_callers_from_file t f) A rfl rfl rfl hI
  cases halG : alGet (SymbolTable.remove_callers_from_file t f).by_file f with
  | none =>
    have hrw : SymbolTable.remove_file t f =
        SymbolTable.remove_callers_from_file t f := by
      simp [SymbolTable.remove_file, halG]
    rw [hrw]
    have hbf : entryOr (SymbolTable.remove_callers_from_file t f).by_file f
        = [] := by
      simp [entryOr, halG]
    refine ⟨ht1, ?_, hbf⟩
    intro k s hs hf
    have := ht1.store_file k s hs
    rw [hf, hbf] at this
    simp at this
  | some keys =>
    have hrw : SymbolTable.remove_file t f =
        keys.foldl remove_key_step
          { SymbolTable.remove_callers_from_file t f with
            by_file := eraseKey
              (SymbolTable.remove_callers_from_file t f).by_file f } := by
      simp [SymbolTable.remove_file, halG]
    rw [hrw]
    exact foldInv_end f _ A
      (foldInv_fold f A keys _ (foldInv_init _ A f keys ht1 halG))

/-- Helper: the key loop never touches the reverse call graph. -/
theorem fold_rcg (ks : List String) :
    ∀ acc : SymbolTable,
      (ks.foldl remove_key_step acc).reverse_call_graph =
        acc.reverse_call_graph := by
  induction ks with
  | nil => intro acc; rfl
  | cons k ks' ih =>
    intro acc
    simp only [List.foldl_cons]
    rw [ih]
    unfold remove_key_step
    cases alGet acc.symbols k <;> rfl

/-- Helper: after `remove_callers_from_file`, no remaining caller
reference originates from the removed file. -/
theorem cleanRcg_mem (m : List (String × List CallerRef)) (f : String) :
    ∀ (n : String) (c : CallerRef),
      c ∈ entryOr
        ((m.map (fun p => (p.1, p.2.filter (fun c => decide (¬ c.file = f))))).filter
          (fun p => decide (¬ p.2 = []))) n →
      ¬ c.file = f := by
  induction m with
  | nil => intro n c hc; simp [entryOr, alGet] at hc
  | cons p t ih =>
    intro n c hc
    simp only [List.map_cons, List.filter_cons] at hc
    by_cases hp : (p.2.filter (fun c => decide (¬ c.file = f))) = []
    · have hcond :
          ¬ ((decide (¬ (p.1, p.2.filter (fun c => decide (¬ c.file = f))).2 = []))
            = true) := by
        rw [decide_eq_true_eq]
        exact not_not_intro hp
      rw [if_neg hcond] at hc
      exact ih n c hc
    · have hcond :
          (decide (¬ (p.1, p.2.filter (fun c => decide (¬ c.file = f))).2 = []))
            = true := by
        rw [decide_eq_true_eq]
        exact hp
      rw [if_pos hcond] at hc
      simp only [entryOr, alGet] at hc
      by_cases hn : p.1 = n
      · rw [if_pos hn] at hc
        simp only [Option.getD_some] at hc
        have := (List.mem_filter.mp hc).2
        simpa using this
      · rw [if_neg hn] at hc
        exact ih n c hc

/-- Helper: after `remove_file f`, no caller reference originates from
`f`. -/
theorem remove_file_callers (t : SymbolTable) (f : String) :
    ∀ (n : String) (c : CallerRef),
      c ∈ entryOr (SymbolTable.remove_file t f).reverse_call_graph n →
      ¬ c.file = f := by
  have hr : (SymbolTable.remove_file t f).reverse_call_graph =
      (SymbolTable.remove_callers_from_file t f).reverse_call_graph := by
    cases halG : alGet (SymbolTable.remove_callers_from_file t f).by_file f with
    | none => simp [SymbolTable.remove_file, halG]
    | some keys =>
      simp only [SymbolTable.remove_file, halG]
      rw [fold_rcg]
  intro n c hc
  rw [hr] at hc
  exact cleanRcg_mem t.reverse_call_graph f n c hc

/-- Helper: the strengthened invariant holds after every operation
sequence whose inserted symbols all lie in a key-coherent pool. -/
theorem applyOps_sinv (A : List Symbol') (hA : KeyCoherent A) :
    ∀ (ops : List TableOp) (t : SymbolTable),
      (∀ s, TableOp.insertOp s ∈ ops → s ∈ A) → SInv t A →
      SInv (ops.foldl applyOp t) A := by
  intro ops
  induction ops with
  | nil => intro t _ h; exact h
  | cons op ops' ih =>
    intro t hmem hI
    simp only [List.foldl_cons]
    apply ih
    · intro s hs
      exact hmem s (List.mem_cons_of_mem _ hs)
    · cases op with
      | insertOp s =>
        exact sinv_insert t A s hA (hmem s (List.mem_cons_self _ _)) hI
      | removeFileOp f =>
        exact (sinv_remove_file t A f hI).1
      | addCallerOp callee file line text =>
        exact sinv_congr t _ A rfl rfl rfl hI

/-- C2 (amended): under every sequence of `insert`, `remove_file` and
`add_caller` operations whose inserted symbols have collision-free
`file::name` keys, the index invariant holds (every stored record's key is
in both secondary indices and the indices hold no stale keys), and after a
final `remove_file F` no symbol record, no `by_file F` entry, no stale
index key and no caller reference with caller file `F` remains.  The
collision-freedom hypothesis is necessary: names or paths containing `::`
can defeat it (see the counterexample). -/
theorem C2_symbol_table_corrected (ops : List TableOp) (F : String)
    (hcf : CollisionFree ops) :
    IndexInv (applyOps ops) ∧
    AfterRemove (applyOps (ops ++ [TableOp.removeFileOp F])) F := by
  have hmem : ∀ s, TableOp.insertOp s ∈ ops → s ∈ insertedSymbols ops := by
    intro s hs
    exact List.mem_filterMap.mpr ⟨TableOp.insertOp s, hs, rfl⟩
  have hI : SInv (applyOps ops) (insertedSymbols ops) :=
    applyOps_sinv (insertedSymbols ops) hcf ops SymbolTable.empty hmem
      (sinv_empty _)
  constructor
  · refine ⟨fun k s h => ⟨hI.store_name k s h, hI.store_file k s h⟩, ?_, ?_⟩
    · intro n k hk
      obtain ⟨s, hs, _⟩ := hI.name_store n k hk
      exact ⟨s, hs⟩
    · intro f k hk
      obtain ⟨s, hs, _⟩ := hI.file_store f k hk
      exact ⟨s, hs⟩
  · have happ : applyOps (ops ++ [TableOp.removeFileOp F]) =
        SymbolTable.remove_file (applyOps ops) F := by
      simp [applyOps, List.foldl_append, applyOp]
    rw [happ]
    obtain ⟨hI', hnof, hbf⟩ :=
      sinv_remove_file (applyOps ops) (insertedSymbols ops) F hI
    refine ⟨hnof, hbf, remove_file_callers _ _, ?_⟩
    refine ⟨fun k s h => ⟨hI'.store_name k s h, hI'.store_file k s h⟩, ?_, ?_⟩
    · intro n k hk
      obtain ⟨s, hs, _⟩ := hI'.name_store n k hk
      exact ⟨s, hs⟩
    · intro f k hk
      obtain ⟨s, hs, _⟩ := hI'.file_store f k hk
      exact ⟨s, hs⟩

/-- C2 counterexample: the claim fails as stated when names or file paths
contain `::`.  Inserting `Symbol{file="a", name="b::c"}` and
`Symbol{file="a::b", name="c"}` produces the same key `"a::b::c"`, and
`remove_file "a"` then deletes the overwritten record while `by_name`
still holds the key: the index invariant is violated. -/
theorem C2_symbol_table_cex :
    ¬ IndexInv (applyOps
      [TableOp.insertOp
        { name := "b::c", kind := SymbolKind.function, file := "a",
          byteRange := (0, 1), lineRange := (1, 1), language := Lang.rust,
          signature := "", definition := none, parent := none },
       TableOp.insertOp
        { name := "c", kind := SymbolKind.function, file := "a::b",
          byteRange := (0, 1), lineRange := (1, 1), language := Lang.rust,
          signature := "", definition := none, parent := none },
       TableOp.removeFileOp "a"]) := by
  intro h
  obtain ⟨s, hs⟩ := h.2.1 "b::c" "a::b::c" (by decide)
  have h1 : (alGet (applyOps
      [TableOp.insertOp
        { name := "b::c", kind := SymbolKind.function, file := "a",
          byteRange := (0, 1), lineRange := (1, 1), language := Lang.rust,
          signature := "", definition := none, parent := none },
       TableOp.insertOp
        { name := "c", kind := SymbolKind.function, file := "a::b",
          byteRange := (0, 1), lineRange := (1, 1), language := Lang.rust,
          signature := "", definition := none, parent := none },
       TableOp.removeFileOp "a"]).symbols "a::b::c").isSome = true := by
    rw [hs]; rfl
  have h2 : (alGet (applyOps
      [TableOp.insertOp
        { name := "b::c", kind := SymbolKind.function, file := "a",
          byteRange := (0, 1), lineRange := (1, 1), language := Lang.rust,
          signature := "", definition := none, parent := none },
       TableOp.insertOp
        { name := "c", kind := SymbolKind.function, file := "a::b",
          byteRange := (0, 1), lineRange := (1, 1), language := Lang.rust,
          signature := "", definition := none, parent := none },
       TableOp.removeFileOp "a"]).symbols "a::b::c").isSome = false := by
    decide
  rw [h2] at h1
  exact Bool.noConfusion h1

/-- C2 witness: the amended theorem applied to a concrete collision-free
sequence (one insert, one caller record) followed by `remove_file`. -/
theorem C2_symbol_table_witness :
    CollisionFree
      [TableOp.insertOp
        { name := "w", kind := SymbolKind.function, file := "f.rs",
          byteRange := (0, 5), lineRange := (1, 1), language := Lang.rust,
          signature := "fn w", definition := none, parent := none },
       TableOp.addCallerOp "w" "g.rs" 3 "w()"] ∧
    (IndexInv (applyOps
      [TableOp.insertOp
        { name := "w", kind := SymbolKind.function, file := "f.rs",
          byteRange := (0, 5), lineRange := (1, 1), language := Lang.rust,
          signature := "fn w", definition := none, parent := none },
       TableOp.addCallerOp "w" "g.rs" 3 "w()"]) ∧
     AfterRemove (applyOps
      ([TableOp.insertOp
        { name := "w", kind := SymbolKind.function, file := "f.rs",
          byteRange := (0, 5), lineRange := (1, 1), language := Lang.rust,
          signature := "fn w", definition := none, parent := none },
        TableOp.addCallerOp "w" "g.rs" 3 "w()"] ++
        [TableOp.removeFileOp "f.rs"])) "f.rs") :=
  ⟨by simp only [CollisionFree, KeyCoherent]; decide,
   C2_symbol_table_corrected
     [TableOp.insertOp
       { name := "w", kind := SymbolKind.function, file := "f.rs",
         byteRange := (0, 5), lineRange := (1, 1), language := Lang.rust,
         signature := "fn w", definition := none, parent := none },
      TableOp.addCallerOp "w" "g.rs" 3 "w()"] "f.rs"
      (by simp only [CollisionFree, KeyCoherent]; decide)⟩

/-- Helper: `floorCB` never exceeds its argument. -/
theorem floorCB_le (src : List Nat) : ∀ n, floorCB src n ≤ n := by
  intro n
  induction n with
  | zero => simp [floorCB]
  | succ n ih =>
    simp only [floorCB]
    by_cases hb : is_char_boundary src (n + 1) = true
    · rw [if_pos hb]
    · rw [if_neg hb]
      omega

/-- Helper: `rfind` returns an index inside the list. -/
theorem lastIdxOf_lt (b : Nat) :
    ∀ (l : List Nat) (i : Nat), lastIdxOf b l = some i → i < l.length := by
  intro l
  induction l with
  | nil => intro i h; simp [lastIdxOf] at h
  | cons x t ih =>
    intro i h
    simp only [lastIdxOf] at h
    cases ht : lastIdxOf b t with
    | some j =>
      rw [ht] at h
      injection h with h'
      have := ih j ht
      simp only [List.length_cons]
      omega
    | none =>
      rw [ht] at h
      by_cases hx : (x == b) = true
      · rw [if_pos hx] at h
        injection h with h'
        simp only [List.length_cons]
        omega
      · rw [if_neg hx] at h
        exact absurd h (by simp)

/-- Helper: a window's end never exceeds the file length. -/
theorem simple_next_end_le (src : List Nat) (max_chunk_bytes start : Nat) :
    simple_next_end src max_chunk_bytes start ≤ src.length := by
  have he0 : floor_char_boundary src (start + max_chunk_bytes) ≤ src.length := by
    have := floorCB_le src (min (start + max_chunk_bytes) src.length)
    simp only [floor_char_boundary]
    omega
  simp only [simple_next_end]
  by_cases he : floor_char_boundary src (start + max_chunk_bytes) < src.length
  · rw [if_pos he]
    split
    · rename_i nl hm
      have hlt := lastIdxOf_lt 10 _ nl hm
      simp only [List.length_take, List.length_drop] at hlt
      omega
    · omega
  · rw [if_neg he]
    exact he0

/-- Helper: projections of `make_chunk`. -/
theorem make_chunk_start (source : List Nat) (i a b : Nat) (syms : List String) :
    (make_chunk source i a b syms).byte_start = a := rfl

/-- Helper: end projection of `make_chunk`. -/
theorem make_chunk_end (source : List Nat) (i a b : Nat) (syms : List String) :
    (make_chunk source i a b syms).byte_end = b := rfl

/-- Helper: symbol-list projection of `make_chunk`. -/
theorem make_chunk_syms (source : List Nat) (i a b : Nat) (syms : List String) :
    (make_chunk source i a b syms).symbols = syms := rfl

/-- Helper: inserting a minimal element leaves it in front. -/
theorem sortInsert_of_le (s : Symbol') (l : List Symbol')
    (h : ∀ x ∈ l, s.byteRange.1 ≤ x.byteRange.1) : sortInsert s l = s :: l := by
  cases l with
  | nil => rfl
  | cons t ts =>
    have ht := h t (by simp)
    simp only [sortInsert]
    rw [if_neg (Nat.not_lt.mpr ht)]

/-- Helper: a list already sorted by `byte_range.0` is fixed by
`sort_by_key`. -/
theorem sort_by_key_sorted_id (l : List Symbol')
    (h : List.Pairwise (fun a b => a.byteRange.1 ≤ b.byteRange.1) l) :
    sort_by_key l = l := by
  induction l with
  | nil => rfl
  | cons s ss ih =>
    simp only [sort_by_key]
    rw [ih (List.Pairwise.of_cons h)]
    exact sortInsert_of_le s ss (fun x hx => List.rel_of_pairwise_cons h hx)

/-- Helper: the byte-window loop, when it terminates, emits nonempty
chunks that tile `[start, eof)` contiguously. -/
theorem simple_go_good (src : List Nat) (max_chunk_bytes : Nat) :
    ∀ (start index : Nat) (L : List SemanticChunk),
      simple_chunks_go src max_chunk_bytes start index = some L →
      (∀ c ∈ L, start ≤ c.byte_start ∧ c.byte_start < c.byte_end ∧
          c.byte_end ≤ src.length) ∧
      List.Chain' (fun c c' => c.byte_end = c'.byte_start) L ∧
      (∀ h, L.head? = some h → h.byte_start = start) := by
  intro start index
  induction start, index using simple_chunks_go.induct src max_chunk_bytes with
  | case1 start index h e1 h2 ih =>
    intro L heq
    rw [simple_chunks_go] at heq
    rw [dif_pos h] at heq
    simp only at heq
    rw [dif_pos h2] at heq
    rw [Option.map_eq_some'] at heq
    obtain ⟨L', hL', hmk⟩ := heq
    obtain ⟨ihm, ihc, ihh⟩ := ih L' hL'
    subst hmk
    have hle : simple_next_end src max_chunk_bytes start ≤ src.length :=
      simple_next_end_le src max_chunk_bytes start
    refine ⟨?_, ?_, ?_⟩
    · intro c hc
      rcases List.mem_cons.mp hc with he | hm
      · subst he
        rw [make_chunk_start, make_chunk_end]
        omega
      · have := ihm c hm
        omega
    · rw [List.chain'_cons']
      constructor
      · intro hd hhd
        have hh := ihh hd hhd
        rw [make_chunk_end]
        omega
      · exact ihc
    · intro hd hhd
      simp only [List.head?_cons] at hhd
      injection hhd with h'
      rw [← h', make_chunk_start]
  | case2 start index h e1 h2 =>
    intro L heq
    rw [simple_chunks_go] at heq
    rw [dif_pos h] at heq
    simp only at heq
    rw [dif_neg h2] at heq
    exact absurd heq (by simp)
  | case3 start index h =>
    intro L heq
    rw [simple_chunks_go] at heq
    rw [dif_neg h] at heq
    injection heq with h'
    subst h'
    refine ⟨by simp, by simp, by simp⟩

/-- Helper: the symbol walk of `semantic_chunks`, run on an ascending list
of pairwise non-overlapping symbols lying inside the file, emits nonempty
chunks with ends inside the file, linked contiguously except immediately
before a chunk isolating an oversized symbol; the first chunk starts at
`chunk_start` unless it is such an isolated chunk. -/
theorem chunksGo_good (src : List Nat) (maxB : Nat) :
    ∀ (syms : List Symbol') (chunk_start chunk_index : Nat)
      (chunk_symbols : List String),
      (∀ s ∈ syms, s.byteRange.1 ≤ s.byteRange.2 ∧
        s.byteRange.2 ≤ src.length) →
      List.Pairwise (fun a b => a.byteRange.2 ≤ b.byteRange.1) syms →
      (∀ s ∈ syms, chunk_start ≤ s.byteRange.1) →
      chunk_start ≤ src.length →
      (∀ c ∈ chunksGo src maxB syms chunk_start chunk_index chunk_symbols,
          chunk_start ≤ c.byte_start ∧ c.byte_start < c.byte_end ∧
            c.byte_end ≤ src.length) ∧
      List.Chain' (gapLink maxB)
        (chunksGo src maxB syms chunk_start chunk_index chunk_symbols) ∧
      (∀ h, (chunksGo src maxB syms chunk_start chunk_index
          chunk_symbols).head? = some h →
        h.byte_start = chunk_start ∨ oversized maxB h) := by
  intro syms
  induction syms with
  | nil =>
    intro chunk_start chunk_index chunk_symbols _ _ _ hcsL
    by_cases hlt : chunk_start < src.length
    · simp only [chunksGo]
      rw [if_pos hlt]
      refine ⟨?_, ?_, ?_⟩
      · intro c hc
        rw [List.mem_singleton] at hc
        subst hc
        rw [make_chunk_start, make_chunk_end]
        omega
      · exact List.chain'_singleton _
      · intro h hh
        simp only [List.head?_cons] at hh
        injection hh with h'
        rw [← h', make_chunk_start]
        exact Or.inl rfl
    · simp only [chunksGo]
      rw [if_neg hlt]
      exact ⟨by simp, by simp, by simp⟩
  | cons sym rest ih =>
    intro chunk_start chunk_index chunk_symbols hrange hpw hstart hcsL
    have hsym := hrange sym (List.mem_cons_self _ _)
    have hse : sym.byteRange.1 ≤ min sym.byteRange.2 src.length :=
      le_min hsym.1 (hsym.1.trans hsym.2)
    have hseL : min sym.byteRange.2 src.length ≤ src.length :=
      min_le_right _ _
    have hcs : chunk_start ≤ sym.byteRange.1 :=
      hstart sym (List.mem_cons_self _ _)
    have hrange' : ∀ s ∈ rest, s.byteRange.1 ≤ s.byteRange.2 ∧
        s.byteRange.2 ≤ src.length :=
      fun s hs => hrange s (List.mem_cons_of_mem _ hs)
    have hpw' : List.Pairwise (fun a b => a.byteRange.2 ≤ b.byteRange.1) rest :=
      List.Pairwise.of_cons hpw
    have hafter : ∀ s ∈ rest, sym.byteRange.2 ≤ s.byteRange.1 :=
      fun s hs => List.rel_of_pairwise_cons hpw hs
    have hstartE : ∀ s ∈ rest, min sym.byteRange.2 src.length ≤ s.byteRange.1 :=
      fun s hs => le_trans (min_le_left _ _) (hafter s hs)
    have hstartS : ∀ s ∈ rest, sym.byteRange.1 ≤ s.byteRange.1 :=
      fun s hs => le_trans hsym.1 (hafter s hs)
    have hstartC : ∀ s ∈ rest, chunk_start ≤ s.byteRange.1 :=
      fun s hs => hstart s (List.mem_cons_of_mem _ hs)
    simp only [chunksGo]
    by_cases hc1 : chunk_start < sym.byteRange.1 ∧
        maxB < min sym.byteRange.2 src.length - chunk_start ∧
        chunk_symbols ≠ []
    · rw [if_pos hc1]
      by_cases hov : maxB < min sym.byteRange.2 src.length - sym.byteRange.1
      · rw [if_pos hov]
        obtain ⟨ihm, ihc, ihh⟩ := ih (min sym.byteRange.2 src.length)
          (chunk_index + 2) [] hrange' hpw' hstartE hseL
        refine ⟨?_, ?_, ?_⟩
        · intro c hc
          rcases List.mem_cons.mp hc with he | hc
          · subst he
            rw [make_chunk_start, make_chunk_end]
            refine ⟨le_refl _, hc1.1, ?_⟩
            omega
          rcases List.mem_cons.mp hc with he | hc
          · subst he
            rw [make_chunk_start, make_chunk_end]
            refine ⟨hcs, ?_, hseL⟩
            omega
          · have := ihm c hc
            refine ⟨?_, this.2.1, this.2.2⟩
            omega
        · rw [List.chain'_cons]
          constructor
          · exact ⟨le_refl _, Or.inl rfl⟩
          rw [List.chain'_cons']
          constructor
          · intro hd hhd
            have hmem := List.mem_of_mem_head? hhd
            have h1 := (ihm hd hmem).1
            have h2 := ihh hd hhd
            refine ⟨?_, ?_⟩
            · rw [make_chunk_end]
              exact h1
            · rcases h2 with h2 | h2
              · left
                rw [make_chunk_end]
                exact h2.symm
              · exact Or.inr h2
          · exact ihc
        · intro h hh
          simp only [List.head?_cons] at hh
          injection hh with h'
          rw [← h', make_chunk_start]
          exact Or.inl rfl
      · rw [if_neg hov]
        obtain ⟨ihm, ihc, ihh⟩ := ih sym.byteRange.1
          (chunk_index + 1) [sym.name] hrange' hpw' hstartS
          (hsym.1.trans hsym.2)
        refine ⟨?_, ?_, ?_⟩
        · intro c hc
          rcases List.mem_cons.mp hc with he | hc
          · subst he
            rw [make_chunk_start, make_chunk_end]
            refine ⟨le_refl _, hc1.1, hsym.1.trans hsym.2⟩
          · have := ihm c hc
            refine ⟨?_, this.2.1, this.2.2⟩
            omega
        · rw [List.chain'_cons']
          constructor
          · intro hd hhd
            have hmem := List.mem_of_mem_head? hhd
            have h1 := (ihm hd hmem).1
            have h2 := ihh hd hhd
            refine ⟨?_, ?_⟩
            · rw [make_chunk_end]
              exact h1
            · rcases h2 with h2 | h2
              · left
                rw [make_chunk_end]
                exact h2.symm
              · exact Or.inr h2
          · exact ihc
        · intro h hh
          simp only [List.head?_cons] at hh
          injection hh with h'
          rw [← h', make_chunk_start]
          exact Or.inl rfl
    · rw [if_neg hc1]
      by_cases hov2 : maxB < min sym.byteRange.2 src.length - sym.byteRange.1 ∧
          chunk_symbols = []
      · rw [if_pos hov2]
        obtain ⟨ihm, ihc, ihh⟩ := ih (min sym.byteRange.2 src.length)
          (chunk_index + 1) [] hrange' hpw' hstartE hseL
        refine ⟨?_, ?_, ?_⟩
        · intro c hc
          rcases List.mem_cons.mp hc with he | hc
          · subst he
            rw [make_chunk_start, make_chunk_end]
            refine ⟨hcs, ?_, hseL⟩
            omega
          · have := ihm c hc
            refine ⟨?_, this.2.1, this.2.2⟩
            omega
        · rw [List.chain'_cons']
          constructor
          · intro hd hhd
            have hmem := List.mem_of_mem_head? hhd
            have h1 := (ihm hd hmem).1
            have h2 := ihh hd hhd
            refine ⟨?_, ?_⟩
            · rw [make_chunk_end]
              exact h1
            · rcases h2 with h2 | h2
              · left
                rw [make_chunk_end]
                exact h2.symm
              · exact Or.inr h2
          · exact ihc
        · intro h hh
          simp only [List.head?_cons] at hh
          injection hh with h'
          rw [← h']
          right
          constructor
          · rw [make_chunk_start, make_chunk_end]
            omega
          · rw [make_chunk_syms]
            rfl
      · rw [if_neg hov2]
        exact ih chunk_start chunk_index (chunk_symbols ++ [sym.name])
          hrange' hpw' hstartC hcsL

/-- Helper: in a gap-linked list of nonempty chunks the first chunk ends
at or before every later chunk's start. -/
theorem chain_head_le (maxB : Nat) :
    ∀ (L : List SemanticChunk) (c : SemanticChunk),
      (∀ x ∈ c :: L, x.byte_start < x.byte_end) →
      List.Chain' (gapLink maxB) (c :: L) →
      ∀ c' ∈ L, c.byte_end ≤ c'.byte_start := by
  intro L
  induction L with
  | nil => intro c _ _ c' hc'; simp at hc'
  | cons d L' ih =>
    intro c hne hch c' hc'
    have hcd : gapLink maxB c d := (List.chain'_cons.mp hch).1
    rcases List.mem_cons.mp hc' with he | hm
    · subst he
      exact hcd.1
    · have hch' : List.Chain' (gapLink maxB) (d :: L') :=
        (List.chain'_cons.mp hch).2
      have hrec := ih d (fun x hx => hne x (List.mem_cons_of_mem _ hx)) hch' c' hm
      have hdd := hne d (by simp)
      have h1 := hcd.1
      omega

/-- Helper: a gap-linked list of nonempty chunks has strictly ascending
start positions. -/
theorem chain_pairwise_lt (maxB : Nat) :
    ∀ L : List SemanticChunk,
      (∀ c ∈ L, c.byte_start < c.byte_end) →
      List.Chain' (gapLink maxB) L →
      List.Pairwise (fun c c' => c.byte_start < c'.byte_start) L := by
  intro L
  induction L with
  | nil => intro _ _; exact List.Pairwise.nil
  | cons c L' ih =>
    intro hne hch
    refine List.Pairwise.cons ?_ (ih (fun x hx => hne x (List.mem_cons_of_mem _ hx))
      (List.Chain'.tail hch))
    intro c' hc'
    have hle := chain_head_le maxB L' c hne hch c' hc'
    have := hne c (by simp)
    omega

set_option maxRecDepth 40000 in
/-- C1 (amended): on the spec scenario (one 120-byte symbol at `[50,170)`,
`max_chunk_bytes = 100`, 200-byte file) `semantic_chunks` returns TWO
chunks — `[50,170)` carrying the symbol and `[170,200)` — the prefix
`[0,50)` is dropped, belonging to no chunk; and in general, for a file
whose symbols lie within the file and are pairwise non-overlapping in
ascending order, every emitted chunk has `byte_end ≤ file_size`, chunks
appear in strictly ascending `byte_start` order, and consecutive chunks
are contiguous except immediately before a chunk that isolates an
oversized symbol. -/
theorem C1_semantic_chunks_corrected :
    ((semantic_chunks (List.replicate 200 65)
        [{ name := "big", kind := SymbolKind.function, file := "a.x",
           byteRange := (50, 170), lineRange := (1, 1), language := Lang.rust,
           signature := "", definition := none, parent := none }] 100).map
      (List.map (fun c => (c.byte_start, c.byte_end, c.symbols)))) =
      some [(50, 170, ["big"]), (170, 200, ([] : List String))] ∧
    ∀ (source : List Nat) (file_symbols : List Symbol')
      (max_chunk_bytes : Nat) (L : List SemanticChunk),
      (∀ s ∈ file_symbols, s.byteRange.1 ≤ s.byteRange.2 ∧
        s.byteRange.2 ≤ source.length) →
      List.Pairwise (fun a b => a.byteRange.2 ≤ b.byteRange.1) file_symbols →
      semantic_chunks source file_symbols max_chunk_bytes = some L →
      (∀ c ∈ L, c.byte_end ≤ source.length) ∧
      List.Pairwise (fun c c' => c.byte_start < c'.byte_start) L ∧
      List.Chain' (gapLink max_chunk_bytes) L := by
  constructor
  · decide
  intro source file_symbols max_chunk_bytes L hrange hpw heq
  by_cases hfs : file_symbols = []
  · subst hfs
    simp only [semantic_chunks, if_pos rfl] at heq
    obtain ⟨hm, hchain, _⟩ :=
      simple_go_good source max_chunk_bytes 0 0 L heq
    have hgap : List.Chain' (gapLink max_chunk_bytes) L :=
      List.Chain'.imp (fun c c' h => ⟨le_of_eq h, Or.inl h⟩) hchain
    refine ⟨fun c hc => (hm c hc).2.2, ?_, hgap⟩
    exact chain_pairwise_lt max_chunk_bytes L (fun c hc => (hm c hc).2.1) hgap
  · simp only [semantic_chunks, if_neg hfs] at heq
    have hkeys : List.Pairwise
        (fun a b => a.byteRange.1 ≤ b.byteRange.1) file_symbols := by
      refine List.Pairwise.imp_of_mem ?_ hpw
      intro a b ha _ hab
      exact le_trans (hrange a ha).1 hab
    rw [sort_by_key_sorted_id file_symbols hkeys] at heq
    injection heq with hL
    subst hL
    obtain ⟨hm, hchain, _⟩ :=
      chunksGo_good source max_chunk_bytes file_symbols 0 0 [] hrange hpw
        (fun s _ => Nat.zero_le _) (Nat.zero_le _)
    refine ⟨fun c hc => (hm c hc).2.2, ?_, hchain⟩
    exact chain_pairwise_lt max_chunk_bytes _ (fun c hc => (hm c hc).2.1) hchain

set_option maxRecDepth 80000 in
/-- C1 counterexample: on the spec scenario the code emits two chunks,
`[50,170)` and `[170,200)` — not the claimed three with `[0,50)` (the
prefix before the isolated oversized symbol belongs to no chunk); and with
two same-range oversized symbols the emitted `byte_start`s are
`[50, 50, 170]`, refuting the claimed strictly ascending order. -/
theorem C1_semantic_chunks_cex :
    ¬ ((semantic_chunks (List.replicate 200 65)
        [{ name := "big", kind := SymbolKind.function, file := "a.x",
           byteRange := (50, 170), lineRange := (1, 1), language := Lang.rust,
           signature := "", definition := none, parent := none }] 100).map
      (List.map (fun c => (c.byte_start, c.byte_end)))) =
      some [(0, 50), (50, 170), (170, 200)] ∧
    ((semantic_chunks (List.replicate 200 65)
        [{ name := "A", kind := SymbolKind.function, file := "a.x",
           byteRange := (50, 170), lineRange := (1, 1), language := Lang.rust,
           signature := "", definition := none, parent := none },
         { name := "B", kind := SymbolKind.function, file := "a.x",
           byteRange := (50, 170), lineRange := (1, 1), language := Lang.rust,
           signature := "", definition := none, parent := none }] 100).map
      (List.map (fun c => c.byte_start))) = some [50, 50, 170] ∧
    ¬ (∀ L, semantic_chunks (List.replicate 200 65)
        [{ name := "A", kind := SymbolKind.function, file := "a.x",
           byteRange := (50, 170), lineRange := (1, 1), language := Lang.rust,
           signature := "", definition := none, parent := none },
         { name := "B", kind := SymbolKind.function, file := "a.x",
           byteRange := (50, 170), lineRange := (1, 1), language := Lang.rust,
           signature := "", definition := none, parent := none }] 100 = some L →
        List.Pairwise (fun c c' => c.byte_start < c'.byte_start) L) := by
  refine ⟨by decide, by decide, ?_⟩
  intro hAll
  have hmap : ((semantic_chunks (List.replicate 200 65)
      [{ name := "A", kind := SymbolKind.function, file := "a.x",
         byteRange := (50, 170), lineRange := (1, 1), language := Lang.rust,
         signature := "", definition := none, parent := none },
       { name := "B", kind := SymbolKind.function, file := "a.x",
         byteRange := (50, 170), lineRange := (1, 1), language := Lang.rust,
         signature := "", definition := none, parent := none }] 100).map
      (List.map (fun c => c.byte_start))) = some [50, 50, 170] := by decide
  cases hL : semantic_chunks (List.replicate 200 65)
      [{ name := "A", kind := SymbolKind.function, file := "a.x",
         byteRange := (50, 170), lineRange := (1, 1), language := Lang.rust,
         signature := "", definition := none, parent := none },
       { name := "B", kind := SymbolKind.function, file := "a.x",
         byteRange := (50, 170), lineRange := (1, 1), language := Lang.rust,
         signature := "", definition := none, parent := none }] 100 with
  | none =>
    rw [hL] at hmap
    exact absurd hmap (by simp)
  | some L =>
    have hp := hAll L hL
    rw [hL] at hmap
    simp only [Option.map_some'] at hmap
    injection hmap with hmap'
    have hplt : List.Pairwise (fun a b => a < b)
        (L.map (fun c => c.byte_start)) :=
      List.pairwise_map.mpr hp
    rw [hmap'] at hplt
    exact absurd hplt (by decide)

/-- C1 witness: the general clause of the amended theorem applied to a
one-byte file with one single-byte symbol and budget 1. -/
theorem C1_semantic_chunks_witness :
    (∀ s ∈ [({ name := "s", kind := SymbolKind.function, file := "a.x",
               byteRange := (0, 1), lineRange := (1, 1), language := Lang.rust,
               signature := "", definition := none, parent := none } : Symbol')],
        s.byteRange.1 ≤ s.byteRange.2 ∧ s.byteRange.2 ≤ ([65] : List Nat).length) ∧
    List.Pairwise (fun a b => a.byteRange.2 ≤ b.byteRange.1)
      [({ name := "s", kind := SymbolKind.function, file := "a.x",
          byteRange := (0, 1), lineRange := (1, 1), language := Lang.rust,
          signature := "", definition := none, parent := none } : Symbol')] ∧
    semantic_chunks [65]
      [{ name := "s", kind := SymbolKind.function, file := "a.x",
         byteRange := (0, 1), lineRange := (1, 1), language := Lang.rust,
         signature := "", definition := none, parent := none }] 1 =
      some [{ index := 0, byte_start := 0, byte_end := 1, line_start := 0,
              line_end := 1, symbols := ["s"], preview := [65] }] ∧
    ((∀ c ∈ [({ index := 0, byte_start := 0, byte_end := 1, line_start := 0,
                line_end := 1, symbols := ["s"],
                preview := [65] } : SemanticChunk)],
        c.byte_end ≤ ([65] : List Nat).length) ∧
      List.Pairwise (fun c c' => c.byte_start < c'.byte_start)
        [({ index := 0, byte_start := 0, byte_end := 1, line_start := 0,
            line_end := 1, symbols := ["s"],
            preview := [65] } : SemanticChunk)] ∧
      List.Chain' (gapLink 1)
        [({ index := 0, byte_start := 0, byte_end := 1, line_start := 0,
            line_end := 1, symbols := ["s"],
            preview := [65] } : SemanticChunk)]) :=
  ⟨by decide, by decide, by decide,
   C1_semantic_chunks_corrected.2 [65]
     [{ name := "s", kind := SymbolKind.function, file := "a.x",
        byteRange := (0, 1), lineRange := (1, 1), language := Lang.rust,
        signature := "", definition := none, parent := none }] 1
     [{ index := 0, byte_start := 0, byte_end := 1, line_start := 0,
        line_end := 1, symbols := ["s"], preview := [65] }]
     (by decide) (by decide) (by decide)⟩
